import Mathlib

/-!
# Verification of the server-actions library

A shallow embedding, in Lean 4, of the core of the `server-actions`
TypeScript repository:

* the object ⇄ FormData transport codec
  (`objectToFormData`, `formDataToObject`, `setNestedValue` in
  `src/utils/transform.ts`),
* the data sanitizer (`sanitizeForTransport`),
* the response-normalizing wrapper (`withFormTransform`, the
  smart-response-detection version shipped in the built package),
* the request-orchestration state of the `useSAR` hook
  (`execute` and the completion of an awaited request in
  `src/hooks/useSAR.ts`).

JavaScript runtime values are modelled by the inductive type `JVal`.
Numbers appear in two forms: `num` carries a mathematical integer (used
for the integral values the library itself produces, exact in IEEE-754
double precision up to `2^53`), and `numF` carries a numeral kept in its
source form, standing for the double `Number()` produces from it —
fractional, exponent-, radix- or overflow-form numerals whose double
value the model does not compute.  `Date` objects carry their ISO
string, `File`/`Blob` objects carry the `name`/`size`/`type` metadata
the library reads, and `Error` objects carry their `message`.  Plain
objects are association lists in insertion order, mirroring JavaScript
property-enumeration order.
-/

/-! ## Decimal numerals

JavaScript `String(n)` on an integer produces the plain decimal
numeral.  The printer is implemented with an explicit fuel argument so
that it is structurally recursive and computable by `rfl`/`decide`. -/

/-- The character of a decimal digit value. -/

def digitChar (d : Nat) : Char := Char.ofNat (48 + d)

/-- Decimal digits of `n`, most significant first; `fuel` bounds the
recursion and any `fuel ≥ n` computes the numeral (used with `fuel = n`). -/

def natDigitsAux : Nat → Nat → List Char
  | 0, n => [digitChar n]
  | fuel + 1, n =>
    if n < 10 then [digitChar n]
    else natDigitsAux fuel (n / 10) ++ [digitChar (n % 10)]

/-- The decimal numeral of a natural number, as `String(n)` prints it. -/

def natToStr (n : Nat) : String := ⟨natDigitsAux n n⟩

/-- The decimal numeral of an integer, as JavaScript `String(n)` prints it. -/

def intToStr : Int → String
  | .ofNat n => natToStr n
  | .negSucc m => ⟨'-' :: natDigitsAux (m + 1) (m + 1)⟩

/-- The value of a digit list read in base 10. -/

def digitsVal (cs : List Char) : Nat :=
  cs.foldl (fun a c => a * 10 + (c.toNat - 48)) 0

/-- Parse a non-empty all-digit character list to its value. -/

def parseDigits (cs : List Char) : Option Nat :=
  if cs ≠ [] ∧ cs.all Char.isDigit then some (digitsVal cs) else none

/-! ## JavaScript numeric coercion: `Number(s)` and `!isNaN(Number(s))`

`setNestedValue` tests path segments and decoded values with
`!isNaN(Number(x))`.  `Number` on a string trims JavaScript whitespace
and then accepts the `StringNumericLiteral` grammar: the empty remainder
(value `0`), an optionally signed decimal literal — digits with an
optional fraction and an optional exponent, or `Infinity` — or an
unsigned `0x`/`0o`/`0b` radix literal.  The recognizer below implements
exactly this grammar. -/

/-- The whitespace characters `Number()` trims (ECMAScript WhiteSpace and
LineTerminator characters). -/

def jsWhitespaceChar (c : Char) : Bool :=
  [' ', '\t', '\n', '\r', '\x0b', '\x0c', '\u00A0', '\u1680', '\u2000', '\u2001',
   '\u2002', '\u2003', '\u2004', '\u2005', '\u2006', '\u2007', '\u2008', '\u2009',
   '\u200A', '\u2028', '\u2029', '\u202F', '\u205F', '\u3000', '\uFEFF'].contains c

/-- Trim leading and trailing JavaScript whitespace. -/

def jsTrim (cs : List Char) : List Char :=
  ((cs.dropWhile jsWhitespaceChar).reverse.dropWhile jsWhitespaceChar).reverse

/-- An optionally signed non-empty digit run (the exponent part of the
decimal grammar). -/

def isSignedDigits : List Char → Bool
  | [] => false
  | c :: rest =>
    if c == '+' || c == '-' then !rest.isEmpty && rest.all Char.isDigit
    else (c :: rest).all Char.isDigit

/-- The tail after the mantissa: empty, or `e`/`E` followed by signed
digits. -/

def isExpOrEmpty : List Char → Bool
  | [] => true
  | c :: rest => (c == 'e' || c == 'E') && isSignedDigits rest

/-- The continuation of an unsigned decimal literal after its integer
digits: `hasInt` records whether at least one integer digit was read;
an optional `.` with fraction digits (at least one digit on some side of
the dot), then an optional exponent. -/

def decDigitsDotTail : List Char → Bool → Bool
  | c :: rest2, hasInt =>
    if c == '.' then
      (hasInt || !(rest2.takeWhile Char.isDigit).isEmpty) &&
      isExpOrEmpty (rest2.drop (rest2.takeWhile Char.isDigit).length)
    else hasInt && isExpOrEmpty (c :: rest2)
  | [], hasInt => hasInt

/-- An unsigned decimal literal: digits, optional `.fraction`, optional
exponent. -/

def isUnsignedDec (cs : List Char) : Bool :=
  decDigitsDotTail (cs.drop (cs.takeWhile Char.isDigit).length)
    (!(cs.takeWhile Char.isDigit).isEmpty)

/-- The characters of the literal `Infinity`. -/

def infinityChars : List Char := ['I', 'n', 'f', 'i', 'n', 'i', 't', 'y']

/-- An unsigned decimal literal or the literal `Infinity` (what may
follow an optional sign). -/

def isUnsignedDecOrInf (cs : List Char) : Bool :=
  cs == infinityChars || isUnsignedDec cs

/-- A hexadecimal digit. -/

def isHexDigit (c : Char) : Bool :=
  c.isDigit || ('a' ≤ c && c ≤ 'f') || ('A' ≤ c && c ≤ 'F')

/-- An octal digit. -/

def isOctDigit (c : Char) : Bool := '0' ≤ c && c ≤ '7'

/-- A binary digit. -/

def isBinDigit (c : Char) : Bool := c == '0' || c == '1'

/-- An unsigned radix literal: `0x`/`0X`, `0o`/`0O` or `0b`/`0B` followed
by at least one digit of that radix. -/

def isRadixLit (cs : List Char) : Bool :=
  match cs with
  | c0 :: c :: rest =>
    c0 == '0' &&
    (if c == 'x' || c == 'X' then !rest.isEmpty && rest.all isHexDigit
     else if c == 'o' || c == 'O' then !rest.isEmpty && rest.all isOctDigit
     else if c == 'b' || c == 'B' then !rest.isEmpty && rest.all isBinDigit
     else false)
  | _ => false

/-- The numeric test on an already-trimmed character list: the empty
remainder (coercing to `0`), a radix literal, or an optionally signed
decimal literal or `Infinity`. -/

def jsIsNumericL : List Char → Bool
  | [] => true
  | c :: rest =>
    isRadixLit (c :: rest) ||
    (if c == '+' || c == '-' then isUnsignedDecOrInf rest
     else isUnsignedDecOrInf (c :: rest))

/-- The test `!isNaN(Number(s))` used by `setNestedValue`: trim, then
recognize the `StringNumericLiteral` grammar. -/

def jsIsNumeric (s : String) : Bool := jsIsNumericL (jsTrim s.data)

/-- The largest natural number (2^53) up to which IEEE-754 doubles
represent every integer exactly, so that `String(Number(s))` reproduces
the plain decimal numeral. -/

def maxExactNat : Nat := 9007199254740992

/-- A non-empty plain digit run whose value is exactly representable as
a double (at most `2^53`): on these and only these magnitudes the model
computes `Number(s)` as an exact integer. -/

def plainSafeDigits (cs : List Char) : Bool :=
  !cs.isEmpty && cs.all Char.isDigit && decide (digitsVal cs ≤ maxExactNat)

/-- The three delimiter characters of the path regex. -/

def isPathDelim (c : Char) : Bool := c == '.' || c == '[' || c == ']'

/-- String split on single-character delimiters, keeping empty segments
(the semantics of JavaScript `String.prototype.split` with a
single-character-class regex). -/

def splitRaw : List Char → List (List Char)
  | [] => [[]]
  | c :: cs =>
    if isPathDelim c then [] :: splitRaw cs
    else
      match splitRaw cs with
      | [] => [[c]]
      | seg :: segs => (c :: seg) :: segs

/-- `path.split(/[.\[\]]/).filter(Boolean)` from `setNestedValue`. -/

def splitPath (s : String) : List String :=
  ((splitRaw s.data).filter (fun seg => !seg.isEmpty)).map (fun seg => ⟨seg⟩)

/-! ## The JavaScript value model -/

/-- A JavaScript runtime value, as far as this library observes it.
`num` carries an integer exactly representable as a double; `numF`
carries a non-integral (or non-exactly-representable) number identified
by the trimmed numeral it was coerced from (its double value is not
computed by the model; `String` on it is approximated by that source
text, exact whenever the source is already in canonical form).  `date`
is a `Date` identified by its ISO-8601 string, `file` a `File`/`Blob`
by the metadata the library reads (a `Blob` appears with name
`"blob"`), and `errObj` an `Error` by its message. -/

inductive JVal where
  | null
  | undefVal
  | str (s : String)
  | num (n : Int)
  | numF (src : String)
  | bool (b : Bool)
  | date (iso : String)
  | file (name : String) (size : Nat) (mime : String)
  | errObj (message : String)
  | arr (elems : List JVal)
  | obj (fields : List (String × JVal))

mutual

/-- JavaScript `String(v)` on the modelled values. -/
def jsStringOf : JVal → String
  | .null => "null"
  | .undefVal => "undefined"
  | .str s => s
  | .num n => intToStr n
  | .numF src => src
  | .bool true => "true"
  | .bool false => "false"
  | .date iso => iso
  | .file _ _ _ => "[object File]"
  | .errObj m => if m = "" then "Error" else "Error: " ++ m
  | .arr xs => jsJoinElems xs
  | .obj _ => "[object Object]"

def jsJoinElems : List JVal → String
  | [] => ""
  | [.null] => ""
  | [.undefVal] => ""
  | [x] => jsStringOf x
  | .null :: y :: rest => "," ++ jsJoinElems (y :: rest)
  | .undefVal :: y :: rest => "," ++ jsJoinElems (y :: rest)
  | x :: y :: rest => jsStringOf x ++ "," ++ jsJoinElems (y :: rest)

end

/-! ## The ISO date-time pattern

`setNestedValue` tests `value.match(/^\d{4}-\d{2}-\d{2}T\d{2}:\d{2}:\d{2}/)`,
an anchored prefix pattern: four digits, a dash, two digits, a dash, two
digits, a literal `T`, and three colon-separated two-digit groups, with
arbitrary trailing text. -/

/-- Test the character at position `i`, false past the end. -/

def charAtIs (cs : List Char) (i : Nat) (p : Char → Bool) : Bool :=
  match cs.get? i with
  | some c => p c
  | none => false

/-- `value.match(/^\d{4}-\d{2}-\d{2}T\d{2}:\d{2}:\d{2}/)` as a Boolean. -/

def matchesDatePattern (s : String) : Bool :=
  let cs := s.data
  charAtIs cs 0 Char.isDigit && charAtIs cs 1 Char.isDigit &&
  charAtIs cs 2 Char.isDigit && charAtIs cs 3 Char.isDigit &&
  charAtIs cs 4 (fun c => c == '-') && charAtIs cs 5 Char.isDigit &&
  charAtIs cs 6 Char.isDigit && charAtIs cs 7 (fun c => c == '-') &&
  charAtIs cs 8 Char.isDigit && charAtIs cs 9 Char.isDigit &&
  charAtIs cs 10 (fun c => c == 'T') && charAtIs cs 11 Char.isDigit &&
  charAtIs cs 12 Char.isDigit && charAtIs cs 13 (fun c => c == ':') &&
  charAtIs cs 14 Char.isDigit && charAtIs cs 15 Char.isDigit &&
  charAtIs cs 16 (fun c => c == ':') && charAtIs cs 17 Char.isDigit &&
  charAtIs cs 18 Char.isDigit

/-! ## Type inference on decoded string values -/

/-- The double `Number(s)` produces from a string, as a `JVal`: after
trimming, the empty string gives `0`; a plain digit run (optionally
signed) whose magnitude is at most `2^53` gives that exact integer; any
other numeral (fractions, exponents, radix forms, `Infinity`,
overflowing digit runs) is kept opaque as `numF` of the trimmed source.
Only called on strings passing `jsIsNumeric`. -/

def jsNumberValL : List Char → JVal
  | [] => .num 0
  | c :: rest =>
    if c == '-' then
      if plainSafeDigits rest then .num (-(digitsVal rest : Int)) else .numF ⟨c :: rest⟩
    else if c == '+' then
      if plainSafeDigits rest then .num (digitsVal rest) else .numF ⟨c :: rest⟩
    else if plainSafeDigits (c :: rest) then .num (digitsVal (c :: rest))
    else .numF ⟨c :: rest⟩

/-- `Number(s)` as a `JVal` (see `jsNumberValL`): trim, then read the
numeral. -/

def jsNumberVal (s : String) : JVal := jsNumberValL (jsTrim s.data)

/-- The `processedValue` computation of `setNestedValue`
(`src/utils/transform.ts`, lines 121-143) for a string `value`: chained
`if`/`else if` — ISO-date-looking strings become `Date`s, then non-empty
strings passing `!isNaN(Number(value))` become the number
`Number(value)`, then `"true"`/`"false"` become Booleans, then the empty
string becomes `null`, and anything else stays a string.
`new Date(value)` is modelled as the date identified by `value` itself. -/

def inferString (value : String) : JVal :=
  if matchesDatePattern value then .date value
  else if jsIsNumeric value && !(value == "") then jsNumberVal value
  else if value == "true" || value == "false" then .bool (value == "true")
  else if value == "" then .null
  else .str value

/-! ## The encoder: `objectToFormData` -/

/-- A FormData entry value: a string, or an appended `File`/`Blob`. -/

inductive FormVal where
  | str (v : String)
  | file (name : String) (size : Nat) (mime : String)

/-- Association-list lookup of an object property. -/

def lookupProp : List (String × JVal) → String → Option JVal
  | [], _ => none
  | (k, v) :: rest, key => if k == key then some v else lookupProp rest key

mutual

/-- `appendToFormData(value, key)`, the inner recursion of
`objectToFormData` (`src/utils/transform.ts`, lines 28-60), returning the
entries it appends, in order: `null`/`undefined` append an empty string,
files are appended as-is, arrays recurse under `key[index]`, and a value
of object type recurses under `key.nestedKey` (bare `nestedKey` when
`key` is empty) only when `value.constructor === Object` — an object
carrying an own `constructor` property fails that test (its `constructor`
is no longer the `Object` function) and falls through, past the `Date`
check, to `String(value)`; dates append their ISO string, and every
remaining value its string conversion. -/
def appendToFormData : JVal → String → List (String × FormVal)
  | .null, key => [(key, .str "")]
  | .undefVal, key => [(key, .str "")]
  | .file n sz mime, key => [(key, .file n sz mime)]
  | .arr xs, key => appendArrayItems xs 0 key
  | .obj kvs, key =>
    if (lookupProp kvs "constructor").isSome then
      [(key, .str (jsStringOf (.obj kvs)))]
    else appendObjectFields kvs key
  | .date iso, key => [(key, .str iso)]
  | .str s, key => [(key, .str (jsStringOf (.str s)))]
  | .num n, key => [(key, .str (jsStringOf (.num n)))]
  | .numF src, key => [(key, .str (jsStringOf (.numF src)))]
  | .bool b, key => [(key, .str (jsStringOf (.bool b)))]
  | .errObj m, key => [(key, .str (jsStringOf (.errObj m)))]

/-- `value.forEach((item, index) => appendToFormData(item, key[index]))`. -/
def appendArrayItems : List JVal → Nat → String → List (String × FormVal)
  | [], _, _ => []
  | x :: xs, i, key =>
    appendToFormData x (key ++ "[" ++ natToStr i ++ "]") ++ appendArrayItems xs (i + 1) key

/-- The `Object.keys(value).forEach(...)` loop over object fields, with
`fullKey = key ? key + "." + nestedKey : nestedKey`. -/
def appendObjectFields : List (String × JVal) → String → List (String × FormVal)
  | [], _ => []
  | (k, v) :: kvs, key =>
    appendToFormData v (if key = "" then k else key ++ "." ++ k) ++ appendObjectFields kvs key

end

/-- Index-keyed entries of a list, for `Object.keys` enumeration. -/

def indexEntries : List JVal → Nat → List (String × JVal)
  | [], _ => []
  | x :: xs, i => (natToStr i, x) :: indexEntries xs (i + 1)

/-- `Object.keys(v)` with the corresponding property values: the own
enumerable properties of `v`.  Plain objects enumerate their fields,
arrays and strings their indexed elements, every other value none. -/

def jsOwnEntries : JVal → List (String × JVal)
  | .obj kvs => kvs
  | .arr xs => indexEntries xs 0
  | .str s => indexEntries (s.data.map (fun c => .str ⟨[c]⟩)) 0
  | _ => []

/-- `objectToFormData(obj, prefix)` (`src/utils/transform.ts`, lines
25-68): iterate the own keys of `obj` (the top-level loop performs no
constructor check), appending each value under
`prefix ? prefix + "." + key : key`. -/

def objectToFormData (o : JVal) (pre : String) : List (String × FormVal) :=
  appendObjectFields (jsOwnEntries o) pre

/-! ## The decoder: `formDataToObject` / `setNestedValue`

The decoder mutates a result graph; the walk reads `key in current` and
writes `current[key] = ...`.  Both operations throw a `TypeError` in
strict mode when `current` is a primitive, so the decoder is modelled as
a partial function into `Except JVal Build`, the `.error` carrying the
thrown exception.  On non-primitive values the model implements
own-property lookup; the `in` operator additionally consults the
prototype chain (`Object.prototype` and friends), so the verified
statements restrict their input domains to keys that are not inherited
property names (`goodKey`, `builtinProtoName`, `cleanTransport`
below). -/

/-- The mutable object graph built by `formDataToObject`.  `arrB`/`objB`
are the containers the decoder creates as `[]` / `{}`, holding their
property assignments as an association list in insertion order (the
arrays built by the decoder are assigned at ascending fresh indices, so
insertion order is index order, matching JavaScript array enumeration).
A `leaf` carries an assigned JavaScript value together with any
properties later written through it: JavaScript lets the walk write
properties on non-primitive leaf values such as `Date`s, while property
access through a primitive leaf throws. -/

inductive Build where
  | leaf (v : JVal) (props : List (String × Build))
  | arrB (props : List (String × Build))
  | objB (props : List (String × Build))

/-- Association-list lookup, leftmost match (JavaScript objects hold each
key once). -/

def findField : List (String × Build) → String → Option Build
  | [], _ => none
  | (k, b) :: rest, key => if k == key then some b else findField rest key

/-- Association-list update: overwrite in place if the key exists
(JavaScript keeps the original insertion position), else append. -/

def setPair : List (String × Build) → String → Build → List (String × Build)
  | [], key, b => [(key, b)]
  | (k, c) :: rest, key, b =>
    if k == key then (k, b) :: rest else (k, c) :: setPair rest key b

/-- Whether a JavaScript value is a primitive: the `in` operator throws
on it, and a strict-mode property write through it throws. -/

def jsPrimitive : JVal → Bool
  | .null => true
  | .undefVal => true
  | .str _ => true
  | .num _ => true
  | .numF _ => true
  | .bool _ => true
  | _ => false

/-- `typeof v`, as it appears in V8 TypeError messages. -/

def typeofName : JVal → String
  | .str _ => "string"
  | .num _ => "number"
  | .numF _ => "number"
  | .bool _ => "boolean"
  | .undefVal => "undefined"
  | _ => "object"

/-- The TypeError thrown by `key in current` when `current` is a
primitive, with the message text V8 produces. -/

def inOpTypeError (key : String) (v : JVal) : JVal :=
  .errObj ("Cannot use \x27in\x27 operator to search for \x27" ++ key ++ "\x27 in "
    ++ jsStringOf v)

/-- The TypeError thrown by the strict-mode write `current[key] = value`
when `current` is a primitive, with the message text V8 produces. -/

def createPropTypeError (key : String) (v : JVal) : JVal :=
  match v with
  | .null => .errObj ("Cannot set properties of null (setting \x27" ++ key ++ "\x27)")
  | .undefVal => .errObj ("Cannot set properties of undefined (setting \x27" ++ key ++ "\x27)")
  | _ => .errObj ("Cannot create property \x27" ++ key ++ "\x27 on "
      ++ typeofName v ++ " \x27" ++ jsStringOf v ++ "\x27")

/-- The read side of the walk: `key in current` followed by
`current[key]`.  Returns the own property when present (`none` when
absent) and throws the `in` TypeError when `current` is a primitive.
Inherited prototype properties are not modelled; the verified statements
exclude inherited names from their input domains. -/

def getFieldE : Build → String → Except JVal (Option Build)
  | .leaf v props, key =>
    if jsPrimitive v then .error (inOpTypeError key v) else .ok (findField props key)
  | .arrB props, key => .ok (findField props key)
  | .objB props, key => .ok (findField props key)

/-- The strict-mode property write `current[key] = value`: update in
place or append on containers and non-primitive leaf values, throw a
TypeError on primitives. -/

def assignProp : Build → String → Build → Except JVal Build
  | .leaf v props, key, c =>
    if jsPrimitive v then .error (createPropTypeError key v)
    else .ok (.leaf v (setPair props key c))
  | .arrB props, key, c => .ok (.arrB (setPair props key c))
  | .objB props, key, c => .ok (.objB (setPair props key c))

/-- The processed value of a FormData entry: string values run the
inference chain of `setNestedValue`, `File` values bypass it. -/

def inferVal : FormVal → JVal
  | .str s => inferString s
  | .file n sz mime => .file n sz mime

/-- The walk-and-assign loop of `setNestedValue` over the split path
segments: walk/create along all but the last segment (when the key is
absent, the fresh container is an array exactly when the next segment
passes the `!isNaN(Number(nextKey))` test), then assign the processed
value at the last segment.  An exception thrown by the `in` read or the
write propagates.  An empty segment list assigns at the property name
`"undefined"` (JavaScript `keys[-1]` is `undefined`, stringified when
used as a property name). -/

def setSegments : Build → List String → FormVal → Except JVal Build
  | b, [], v => assignProp b "undefined" (.leaf (inferVal v) [])
  | b, [k], v => assignProp b k (.leaf (inferVal v) [])
  | b, k :: k2 :: rest, v =>
    match getFieldE b k with
    | .error e => .error e
    | .ok cur0 =>
      match setSegments
          (match cur0 with
           | some c => c
           | none => if jsIsNumeric k2 then .arrB [] else .objB []) (k2 :: rest) v with
      | .error e => .error e
      | .ok c2 => assignProp b k c2

/-- `setNestedValue(obj, path, value)` (`src/utils/transform.ts`,
lines 101-144). -/

def setNestedValue (b : Build) (path : String) (v : FormVal) : Except JVal Build :=
  setSegments b (splitPath path) v

/-- The entry fold of `formDataToObject`: an exception thrown by
`setNestedValue` aborts the iteration and propagates (the `forEach`
callback does not catch). -/

def formDataToObjectAux : Build → List (String × FormVal) → Except JVal Build
  | b, [] => .ok b
  | b, kv :: rest =>
    match setNestedValue b kv.1 kv.2 with
    | .error e => .error e
    | .ok b2 => formDataToObjectAux b2 rest

/-- `formDataToObject(formData)` (`src/utils/transform.ts`, lines 87-95):
fold `setNestedValue` over the entries in insertion order, starting from
the fresh result object `{}`. -/

def formDataToObject (fd : List (String × FormVal)) : Except JVal Build :=
  formDataToObjectAux (.objB []) fd

/-! ## The sanitizer -/

mutual

/-- `sanitizeForTransport(data)` (`src/utils/response.ts`, lines 154-187):
`null`/`undefined` pass through, arrays map recursively, `Date`s become
their ISO string, `File`/`Blob`s become the `{name, size, type, _isFile}`
metadata object, and an object of object type rebuilds field by field
only when `data.constructor === Object` — an object carrying an own
`constructor` property fails that test and is returned unchanged, as is
every other value (scalars, non-plain objects such as `Error`s).
The `sanitizeDataForClient` helper in `src/utils/wrapper.ts` is
character-for-character the same function and is embedded by this same
definition. -/
def sanitizeForTransport : JVal → JVal
  | .null => .null
  | .undefVal => .undefVal
  | .arr xs => .arr (sanitizeElems xs)
  | .date iso => .str iso
  | .file n sz mime =>
    .obj [("name", .str n), ("size", .num (Int.ofNat sz)),
          ("type", .str mime), ("_isFile", .bool true)]
  | .obj kvs =>
    if (lookupProp kvs "constructor").isSome then .obj kvs
    else .obj (sanitizeFields kvs)
  | .errObj m => .errObj m
  | .str s => .str s
  | .num n => .num n
  | .numF src => .numF src
  | .bool b => .bool b

/-- `data.map(sanitizeForTransport)`. -/
def sanitizeElems : List JVal → List JVal
  | [] => []
  | x :: xs => sanitizeForTransport x :: sanitizeElems xs

/-- The `Object.entries` rebuild loop of the plain-object case. -/
def sanitizeFields : List (String × JVal) → List (String × JVal)
  | [] => []
  | (k, v) :: kvs => (k, sanitizeForTransport v) :: sanitizeFields kvs

end

/-! ## The response-normalizing wrapper `withFormTransform`

The version with smart response detection (the one compiled into the
published `dist/` bundle).  A raw action is modelled as a function from
the decoded input to `Except JVal JVal`: `.ok r` models the returned
promise resolving with `r`, `.error e` models it rejecting with (or the
action throwing) the JavaScript value `e`.  Both the decode
(`formDataToObject`) and the invocation run inside the `try`, so an
exception from either reaches the same `catch`. -/

/-- The configuration slice of `useSAR` consumed by `execute` and by the
completion of a request.  `hasOnSuccess`/`hasOnError` record whether the
optional callbacks were supplied. -/

structure HookConfig where
  condition : Option Bool
  cacheTime : Int
  dedupingInterval : Int
  hasOnSuccess : Bool
  hasOnError : Bool

/-- A payload as `execute` accepts it: a ready FormData, or a plain
record to be encoded. -/

inductive Payload where
  | formData (fd : List (String × FormVal))
  | record (o : JVal)

/-- The normalization inside `serverActionRequest`
(`src/utils/request.ts`, lines 30-40): FormData passes through unchanged,
anything else runs through `objectToFormData`. -/

def payloadToFormData : Payload → List (String × FormVal)
  | .formData fd => fd
  | .record o => objectToFormData o ""

/-- The per-mount-site state of `useSAR`: the `loading`/`error`/`data`
state variables and the refs (`lastRequestDataRef`, `abortControllerRef`,
`lastRequestTimeRef`, `cacheTimeoutRef`). -/

structure Session where
  loading : Bool
  error : Option String
  data : Option JVal
  lastRequestData : Option Payload
  currentToken : Option Nat
  nextToken : Nat
  aborted : List Nat
  lastRequestTime : Int
  cacheTimerActive : Bool

/-- The session state on first mount. -/

def initialSession : Session :=
  { loading := false, error := none, data := none, lastRequestData := none,
    currentToken := none, nextToken := 0, aborted := [], lastRequestTime := 0,
    cacheTimerActive := false }

/-- A resolved `ServerActionResponse`, as the hook consumes it
(`response.ok`, `response.data`, `response.message`). -/

inductive HookResp where
  | success (message : String) (data : JVal)
  | failure (message : String)

/-- The observable callback invocations of one completed request. -/

inductive CallbackEvent where
  | onSuccessCalled (d : JVal)
  | onErrorCalled (msg : String)

/-- The synchronous prefix of `execute(requestData)`
(`src/hooks/useSAR.ts`, lines 131-166), run at time `now`: the condition
gate, storing a provided payload in `lastRequestDataRef`, the
deduplication guard (less than `dedupingInterval` since the last accepted
trigger while the *captured* `loading` state variable — `loadingView`,
the value the calling render closure saw — is true), aborting the
previous controller, creating a fresh controller,
`setLoading(true)`/`setError(undefined)`, and the payload normalization
`requestData || lastRequestDataRef.current || {}`.  Returns the new
session and `some (token, formData)` when a request is dispatched,
`none` when the call stops at a guard. -/

def executeStart (cfg : HookConfig) (s : Session) (loadingView : Bool)
    (requestData : Option Payload) (now : Int) :
    Session × Option (Nat × List (String × FormVal)) :=
  if cfg.condition = some false then (s, none)
  else
    let s1 := match requestData with
      | some p => { s with lastRequestData := some p }
      | none => s
    if now - s1.lastRequestTime < cfg.dedupingInterval ∧ loadingView = true then (s1, none)
    else
      ({ s1 with
          lastRequestTime := now,
          aborted := match s1.currentToken with
            | some t0 => t0 :: s1.aborted
            | none => s1.aborted,
          currentToken := some s1.nextToken,
          nextToken := s1.nextToken + 1,
          loading := true,
          error := none },
        some (s1.nextToken,
          payloadToFormData ((match requestData with
            | some p => some p
            | none => s1.lastRequestData).getD (.record (.obj [])))))

/-- The continuation of `execute` after `await serverActionRequest(...)`
resolves (`src/hooks/useSAR.ts`, lines 173-217), for the request carrying
token `t`: a superseded request (`signal.aborted`) returns without any
state change; otherwise a success stores `response.data`, fires
`onSuccess` and (re)arms the cache-expiry timer when `cacheTime > 0`,
while a failure stores `response.message || "Operation failed"` as the
error and fires `onError`; either way `loading` becomes false. -/

def completeRequest (cfg : HookConfig) (s : Session) (t : Nat) (resp : HookResp) :
    Session × List CallbackEvent :=
  if s.aborted.contains t then (s, [])
  else
    match resp with
    | .success _ d =>
      ({ s with
          data := some d,
          loading := false,
          cacheTimerActive := if 0 < cfg.cacheTime then true else s.cacheTimerActive },
        if cfg.hasOnSuccess then [.onSuccessCalled d] else [])
    | .failure msg =>
      let errorMessage := if msg = "" then "Operation failed" else msg
      ({ s with error := some errorMessage, loading := false },
        if cfg.hasOnError then [.onErrorCalled errorMessage] else [])

/-! ## Claim-side definitions -/

mutual

/-- The reinterpretation claim C1 allows on a round trip: string leaves
are re-read by the decoder's inference chain and `null`/`undefined`
leaves become `null`; every other leaf and the tree shape are reproduced. -/
def reinterpret : JVal → JVal
  | .null => .null
  | .undefVal => .null
  | .str s => inferString s
  | .num n => .num n
  | .numF src => .numF src
  | .bool b => .bool b
  | .date iso => .date iso
  | .file n sz mime => .file n sz mime
  | .errObj m => .errObj m
  | .arr xs => .arr (reinterpretElems xs)
  | .obj kvs => .obj (reinterpretFields kvs)

/-- Elementwise reinterpretation of a sequence. -/
def reinterpretElems : List JVal → List JVal
  | [] => []
  | x :: xs => reinterpret x :: reinterpretElems xs

/-- Fieldwise reinterpretation of a mapping. -/
def reinterpretFields : List (String × JVal) → List (String × JVal)
  | [] => []
  | (k, v) :: kvs => (k, reinterpret v) :: reinterpretFields kvs

end

mutual

/-- The canonical object graph of a structured value: arrays hold their
elements at the index properties `"0"`, `"1"`, ... in order, objects hold
their fields in order, everything else is a property-free leaf.  This is
the graph `formDataToObject` is expected to rebuild. -/
def toBuild : JVal → Build
  | .arr xs => .arrB (toBuildElems xs 0)
  | .obj kvs => .objB (toBuildFields kvs)
  | .null => .leaf .null []
  | .undefVal => .leaf .undefVal []
  | .str s => .leaf (.str s) []
  | .num n => .leaf (.num n) []
  | .numF src => .leaf (.numF src) []
  | .bool b => .leaf (.bool b) []
  | .date iso => .leaf (.date iso) []
  | .file n sz mime => .leaf (.file n sz mime) []
  | .errObj m => .leaf (.errObj m) []

/-- Index-keyed canonical graph entries of a sequence. -/
def toBuildElems : List JVal → Nat → List (String × Build)
  | [], _ => []
  | x :: xs, i => (natToStr i, toBuild x) :: toBuildElems xs (i + 1)

/-- Canonical graph entries of a mapping. -/
def toBuildFields : List (String × JVal) → List (String × Build)
  | [] => []
  | (k, v) :: kvs => (k, toBuild v) :: toBuildFields kvs

end

/-- The inherited (prototype) property names of a plain object: the
properties of `Object.prototype`.  The `in` operator finds these on
every plain object, so a decoder walk through such a key diverges from
own-property lookup; the verified domains exclude them. -/

def objectProtoProps : List String :=
  ["constructor", "hasOwnProperty", "isPrototypeOf", "propertyIsEnumerable",
   "toLocaleString", "toString", "valueOf", "__proto__",
   "__defineGetter__", "__defineSetter__", "__lookupGetter__", "__lookupSetter__"]

/-- A mapping key that survives the flat-key encoding: nonempty, free of
the path delimiters `.`, `[`, `]`, not numerically coercible (a numeric
key would make the decoder create an array), and not an inherited
`Object.prototype` property name (on which the decoder's `in` test finds
the inherited member instead of the absent own property). -/

def goodKey (k : String) : Bool :=
  !(k == "") && k.data.all (fun c => !(isPathDelim c)) && !(jsIsNumeric k) &&
  !(objectProtoProps.contains k)

/-- `k` does not occur among the keys of `kvs`. -/

def keyNotIn (k : String) (kvs : List (String × JVal)) : Bool :=
  kvs.all (fun kv => !(kv.1 == k))

mutual

/-- The input domain of the round-trip statement (claim C1, as amended):
trees of scalars, nonempty sequences and nonempty mappings — no dates,
no binary attachments, no `Error` objects, integers exactly
representable as doubles — whose mapping keys are duplicate-free good
keys.  (Empty containers are dropped by the encoder, which is what
forces the nonemptiness conditions.) -/
def goodVal : JVal → Bool
  | .null => true
  | .undefVal => true
  | .str _ => true
  | .num n => decide (n.natAbs ≤ maxExactNat)
  | .numF _ => false
  | .bool _ => true
  | .date _ => false
  | .file _ _ _ => false
  | .errObj _ => false
  | .arr xs => !xs.isEmpty && goodElems xs
  | .obj kvs => !kvs.isEmpty && goodFields kvs

/-- All elements of a sequence are good. -/
def goodElems : List JVal → Bool
  | [] => true
  | x :: xs => goodVal x && goodElems xs

/-- All fields of a mapping carry good, pairwise-distinct keys and good
values. -/
def goodFields : List (String × JVal) → Bool
  | [] => true
  | (k, v) :: kvs => goodKey k && keyNotIn k kvs && goodVal v && goodFields kvs

end

/-- The round-trip domain at the top level: a mapping (possibly empty —
`objectToFormData` is always called on the payload object) with good
fields. -/

def goodTopObject : JVal → Bool
  | .obj kvs => goodFields kvs
  | _ => false

mutual

/-- The entries of `appendToFormData v`, with paths as segment lists
relative to `v`'s own position (defined without the constructor guard:
on good values the guard never fires). -/
def segEntriesOf : JVal → List (List String × FormVal)
  | .arr xs => segArr xs 0
  | .obj kvs => segObj kvs
  | .null => [([], .str "")]
  | .undefVal => [([], .str "")]
  | .file n sz m => [([], .file n sz m)]
  | .date iso => [([], .str iso)]
  | .str s => [([], .str (jsStringOf (.str s)))]
  | .num n => [([], .str (jsStringOf (.num n)))]
  | .numF src => [([], .str (jsStringOf (.numF src)))]
  | .bool b => [([], .str (jsStringOf (.bool b)))]
  | .errObj m => [([], .str (jsStringOf (.errObj m)))]

/-- Segment entries of array elements from index `i` on. -/
def segArr : List JVal → Nat → List (List String × FormVal)
  | [], _ => []
  | x :: xs, i =>
    (segEntriesOf x).map (fun e => (natToStr i :: e.1, e.2)) ++ segArr xs (i + 1)

/-- Segment entries of object fields. -/
def segObj : List (String × JVal) → List (List String × FormVal)
  | [] => []
  | (k, x) :: kvs =>
    (segEntriesOf x).map (fun e => (k :: e.1, e.2)) ++ segObj kvs

end

/-- Whether a built node is a container (an array or plain object). -/

def isContainer : Build → Bool
  | .leaf _ _ => false
  | .arrB _ => true
  | .objB _ => true

/-- Property read `current[key]` restricted to containers, as a total
function (used by the proof layer; `none` on a leaf). -/

def getField : Build → String → Option Build
  | .leaf _ _, _ => none
  | .arrB props, key => findField props key
  | .objB props, key => findField props key

/-- Property write `current[key] = b` restricted to containers, as a
total function (identity on a leaf; the proof layer applies it to
containers only). -/

def setField : Build → String → Build → Build
  | .leaf v props, _, _ => .leaf v props
  | .arrB props, key, b => .arrB (setPair props key b)
  | .objB props, key, b => .objB (setPair props key b)

/-- Folding `setSegments` over segment-level entries, in order, with
exceptions propagating. -/

def insertEntries : Build → List (List String × FormVal) → Except JVal Build
  | b, [] => .ok b
  | b, e :: rest =>
    match setSegments b e.1 e.2 with
    | .error err => .error err
    | .ok b2 => insertEntries b2 rest

/-! ## Theorems -/

/-! Basic facts about the numerals. -/

theorem digitChar_isDigit {d : Nat} (h : d < 10) : (digitChar d).isDigit = true := by
  interval_cases d <;> decide

theorem digitChar_toNat {d : Nat} (h : d < 10) : (digitChar d).toNat - 48 = d := by
  interval_cases d <;> decide

theorem natDigitsAux_ne_nil (fuel n : Nat) : natDigitsAux fuel n ≠ [] := by
  cases fuel with
  | zero => simp [natDigitsAux]
  | succ fuel =>
    by_cases h : n < 10 <;> simp [natDigitsAux, h]

theorem natDigitsAux_all_digits (fuel : Nat) :
    ∀ n, n ≤ fuel → ∀ c ∈ natDigitsAux fuel n, c.isDigit = true := by
  induction fuel with
  | zero =>
    intro n hn c hc
    interval_cases n
    simp [natDigitsAux] at hc
    subst hc
    decide
  | succ fuel ih =>
    intro n hn c hc
    by_cases h : n < 10
    · simp [natDigitsAux, h] at hc
      subst hc
      exact digitChar_isDigit h
    · simp only [natDigitsAux, if_neg h, List.mem_append, List.mem_singleton] at hc
      rcases hc with hc | hc
      · exact ih (n / 10) (by omega) c hc
      · subst hc
        exact digitChar_isDigit (Nat.mod_lt _ (by omega))

theorem digitsVal_natDigitsAux (fuel : Nat) :
    ∀ n, n ≤ fuel → digitsVal (natDigitsAux fuel n) = n := by
  induction fuel with
  | zero =>
    intro n hn
    interval_cases n
    decide
  | succ fuel ih =>
    intro n hn
    by_cases h : n < 10
    · simp [natDigitsAux, h, digitsVal, digitChar_toNat h]
    · have h10 : n / 10 ≤ fuel := by omega
      have hrec := ih (n / 10) h10
      simp only [digitsVal] at hrec ⊢
      simp only [natDigitsAux, if_neg h, List.foldl_append, hrec,
        List.foldl_cons, List.foldl_nil, digitChar_toNat (Nat.mod_lt n (by omega))]
      omega

theorem parseDigits_natDigitsAux (fuel : Nat) :
    ∀ n, n ≤ fuel → parseDigits (natDigitsAux fuel n) = some n := by
  intro n hn
  unfold parseDigits
  have hall : (natDigitsAux fuel n).all Char.isDigit = true := by
    rw [List.all_eq_true]
    exact fun c hc => natDigitsAux_all_digits fuel n hn c hc
  rw [if_pos ⟨natDigitsAux_ne_nil fuel n, hall⟩, digitsVal_natDigitsAux fuel n hn]

theorem intToStr_ne_empty (z : Int) : intToStr z ≠ "" := by
  cases z with
  | ofNat n =>
    unfold intToStr natToStr
    intro h
    exact natDigitsAux_ne_nil n n (congrArg String.data h)
  | negSucc m =>
    unfold intToStr
    intro h
    exact List.cons_ne_nil _ _ (congrArg String.data h)

/-- A digit character is distinct from any non-digit character. -/

theorem digit_ne_char {c : Char} (w : Char) (h : c.isDigit = true)
    (hw : w.isDigit = false) : (c == w) = false := by
  cases hq : c == w with
  | false => rfl
  | true =>
    rw [beq_iff_eq] at hq
    subst hq
    rw [h] at hw
    exact absurd hw (by simp)

theorem digit_not_jsWs {c : Char} (h : c.isDigit = true) : jsWhitespaceChar c = false := by
  cases hq : jsWhitespaceChar c with
  | false => rfl
  | true =>
    simp [jsWhitespaceChar] at hq
    rcases hq with rfl | rfl | rfl | rfl | rfl | rfl | rfl | rfl | rfl | rfl | rfl | rfl |
      rfl | rfl | rfl | rfl | rfl | rfl | rfl | rfl | rfl | rfl | rfl | rfl | rfl <;>
      exact absurd h (by decide)

theorem dropWhile_false {α : Type} (p : α → Bool) (l : List α)
    (h : ∀ c ∈ l, p c = false) : l.dropWhile p = l := by
  cases l with
  | nil => rfl
  | cons a l2 =>
    rw [List.dropWhile_cons]
    simp [h a (List.mem_cons_self a l2)]

theorem takeWhile_true {α : Type} (p : α → Bool) (l : List α)
    (h : ∀ c ∈ l, p c = true) : l.takeWhile p = l := by
  induction l with
  | nil => rfl
  | cons a l2 ih =>
    rw [List.takeWhile_cons]
    simp [h a (List.mem_cons_self a l2), ih (fun c hc => h c (List.mem_cons_of_mem a hc))]

theorem jsTrim_id (cs : List Char) (h : ∀ c ∈ cs, jsWhitespaceChar c = false) :
    jsTrim cs = cs := by
  unfold jsTrim
  rw [dropWhile_false _ cs h,
    dropWhile_false _ cs.reverse (fun c hc => h c (List.mem_reverse.mp hc)),
    List.reverse_reverse]

theorem isRadixLit_digits (cs : List Char) (h : ∀ c ∈ cs, c.isDigit = true) :
    isRadixLit cs = false := by
  cases cs with
  | nil => rfl
  | cons c0 cs2 =>
    cases cs2 with
    | nil => rfl
    | cons c rest =>
      have hc : c.isDigit = true := h c (List.mem_cons_of_mem c0 (List.mem_cons_self c rest))
      simp only [isRadixLit,
        digit_ne_char 'x' hc (by decide), digit_ne_char 'X' hc (by decide),
        digit_ne_char 'o' hc (by decide), digit_ne_char 'O' hc (by decide),
        digit_ne_char 'b' hc (by decide), digit_ne_char 'B' hc (by decide)]
      simp

theorem isRadixLit_not_zero_head (c0 : Char) (h : (c0 == '0') = false) :
    ∀ rest : List Char, isRadixLit (c0 :: rest) = false := by
  intro rest
  cases rest with
  | nil => rfl
  | cons c rest2 => simp [isRadixLit, h]

theorem isUnsignedDec_digits (cs : List Char) (hne : cs ≠ [])
    (h : ∀ c ∈ cs, c.isDigit = true) : isUnsignedDec cs = true := by
  unfold isUnsignedDec
  rw [takeWhile_true Char.isDigit cs h, List.drop_length]
  simp [decDigitsDotTail, List.isEmpty_iff, hne]

theorem infinity_head_not_digit {c : Char} {rest : List Char} (hc : c.isDigit = true) :
    ((c :: rest) == infinityChars) = false := by
  cases hq : (c :: rest) == infinityChars with
  | false => rfl
  | true =>
    rw [beq_iff_eq] at hq
    simp only [infinityChars] at hq
    injection hq with h1 _
    rw [h1] at hc
    exact absurd hc (by decide)

theorem isUnsignedDecOrInf_digits (cs : List Char) (hne : cs ≠ [])
    (h : ∀ c ∈ cs, c.isDigit = true) : isUnsignedDecOrInf cs = true := by
  cases cs with
  | nil => exact absurd rfl hne
  | cons c rest =>
    have hc : c.isDigit = true := h c (List.mem_cons_self c rest)
    simp [isUnsignedDecOrInf, infinity_head_not_digit hc,
      isUnsignedDec_digits (c :: rest) hne h]

theorem jsIsNumeric_digits (cs : List Char) (hne : cs ≠ [])
    (h : ∀ c ∈ cs, c.isDigit = true) : jsIsNumeric ⟨cs⟩ = true := by
  have htrim : jsTrim cs = cs := jsTrim_id cs (fun c hc => digit_not_jsWs (h c hc))
  have h1 : jsIsNumeric ⟨cs⟩ = jsIsNumericL (jsTrim cs) := rfl
  rw [h1, htrim]
  cases cs with
  | nil => exact absurd rfl hne
  | cons c rest =>
    have hc : c.isDigit = true := h c (List.mem_cons_self c rest)
    simp only [jsIsNumericL, isRadixLit_digits (c :: rest) h,
      digit_ne_char '+' hc (by decide), digit_ne_char '-' hc (by decide)]
    simp [isUnsignedDecOrInf_digits (c :: rest) hne h]

theorem jsIsNumeric_intToStr (n : Int) : jsIsNumeric (intToStr n) = true := by
  cases n with
  | ofNat m =>
    exact jsIsNumeric_digits (natDigitsAux m m) (natDigitsAux_ne_nil m m)
      (natDigitsAux_all_digits m m (le_refl m))
  | negSucc m =>
    have hdig := natDigitsAux_all_digits (m + 1) (m + 1) (le_refl _)
    have htrim : jsTrim ('-' :: natDigitsAux (m + 1) (m + 1)) =
        '-' :: natDigitsAux (m + 1) (m + 1) := by
      apply jsTrim_id
      intro c hc
      rcases List.mem_cons.mp hc with rfl | hc
      · decide
      · exact digit_not_jsWs (hdig c hc)
    have h1 : jsIsNumeric (intToStr (Int.negSucc m)) =
        jsIsNumericL (jsTrim ('-' :: natDigitsAux (m + 1) (m + 1))) := rfl
    rw [h1, htrim]
    simp only [jsIsNumericL, isRadixLit_not_zero_head '-' (by decide)]
    simp [isUnsignedDecOrInf_digits (natDigitsAux (m + 1) (m + 1))
      (natDigitsAux_ne_nil (m + 1) (m + 1)) hdig]

theorem jsNumberVal_intToStr (n : Int) (hb : n.natAbs ≤ maxExactNat) :
    jsNumberVal (intToStr n) = .num n := by
  cases n with
  | ofNat m =>
    have hdig := natDigitsAux_all_digits m m (le_refl m)
    have hne := natDigitsAux_ne_nil m m
    have htrim : jsTrim (natDigitsAux m m) = natDigitsAux m m :=
      jsTrim_id _ (fun c hc => digit_not_jsWs (hdig c hc))
    have hval : digitsVal (natDigitsAux m m) = m := digitsVal_natDigitsAux m m (le_refl m)
    have hsafe : plainSafeDigits (natDigitsAux m m) = true := by
      unfold plainSafeDigits
      rw [hval]
      have hbm : m ≤ maxExactNat := by simpa using hb
      have hall : (natDigitsAux m m).all Char.isDigit = true := by
        rw [List.all_eq_true]
        exact hdig
      simp [List.isEmpty_iff, hne, hall, hbm]
    have h1 : jsNumberVal (intToStr (Int.ofNat m)) =
        jsNumberValL (jsTrim (natDigitsAux m m)) := rfl
    rw [h1, htrim]
    cases hd : natDigitsAux m m with
    | nil => exact absurd hd hne
    | cons c cs =>
      have hc : c.isDigit = true := by
        apply hdig
        rw [hd]
        exact List.mem_cons_self c cs
      rw [hd] at hsafe hval
      simp only [jsNumberValL, digit_ne_char '-' hc (by decide),
        digit_ne_char '+' hc (by decide), hsafe, hval]
      simp
  | negSucc m =>
    have hdig := natDigitsAux_all_digits (m + 1) (m + 1) (le_refl _)
    have htrim : jsTrim ('-' :: natDigitsAux (m + 1) (m + 1)) =
        '-' :: natDigitsAux (m + 1) (m + 1) := by
      apply jsTrim_id
      intro c hc
      rcases List.mem_cons.mp hc with rfl | hc
      · decide
      · exact digit_not_jsWs (hdig c hc)
    have hval : digitsVal (natDigitsAux (m + 1) (m + 1)) = m + 1 :=
      digitsVal_natDigitsAux (m + 1) (m + 1) (le_refl _)
    have hsafe : plainSafeDigits (natDigitsAux (m + 1) (m + 1)) = true := by
      unfold plainSafeDigits
      rw [hval]
      have hbm : m + 1 ≤ maxExactNat := by simpa using hb
      have hall : (natDigitsAux (m + 1) (m + 1)).all Char.isDigit = true := by
        rw [List.all_eq_true]
        exact hdig
      simp [List.isEmpty_iff, natDigitsAux_ne_nil (m + 1) (m + 1), hall, hbm]
    have h1 : jsNumberVal (intToStr (Int.negSucc m)) =
        jsNumberValL (jsTrim ('-' :: natDigitsAux (m + 1) (m + 1))) := rfl
    rw [h1, htrim]
    simp only [jsNumberValL, beq_self_eq_true, if_true, hsafe, hval]
    simp [Int.negSucc_eq]

/-! Path-splitting facts. -/

theorem splitRaw_ne_nil (cs : List Char) : splitRaw cs ≠ [] := by
  induction cs with
  | nil => simp [splitRaw]
  | cons c cs ih =>
    by_cases h : isPathDelim c
    · simp [splitRaw, h]
    · simp only [splitRaw, if_neg h]
      cases hs : splitRaw cs with
      | nil => simp
      | cons seg segs => simp

theorem splitRaw_append_delim (a b : List Char) (d : Char) (hd : isPathDelim d = true) :
    splitRaw (a ++ d :: b) = splitRaw a ++ splitRaw b := by
  induction a with
  | nil => simp [splitRaw, hd]
  | cons c cs ih =>
    by_cases h : isPathDelim c
    · simp [splitRaw, h, ih]
    · rcases hs : splitRaw cs with _ | ⟨seg, segs⟩
      · exact absurd hs (splitRaw_ne_nil cs)
      · simp [List.cons_append, splitRaw, if_neg h, ih, hs]

theorem splitRaw_no_delim (cs : List Char) (h : ∀ c ∈ cs, isPathDelim c = false) :
    splitRaw cs = [cs] := by
  induction cs with
  | nil => rfl
  | cons c rest ih =>
    have hc : isPathDelim c = false := h c (List.mem_cons_self c rest)
    have hrest : splitRaw rest = [rest] := ih (fun x hx => h x (List.mem_cons_of_mem c hx))
    simp [splitRaw, hc, hrest]

/-- A digit character is never a path delimiter. -/

theorem isDigit_not_delim {c : Char} (h : c.isDigit = true) : isPathDelim c = false := by
  unfold isPathDelim
  rw [digit_ne_char '.' h (by decide), digit_ne_char '[' h (by decide),
    digit_ne_char ']' h (by decide)]
  rfl

/-- A key made only of non-delimiter characters, when nonempty, splits to
itself as the single segment. -/

theorem splitPath_single (cs : List Char) (hne : cs ≠ [])
    (h : ∀ c ∈ cs, isPathDelim c = false) : splitPath ⟨cs⟩ = [⟨cs⟩] := by
  unfold splitPath
  simp only [String.data]
  rw [splitRaw_no_delim cs h]
  simp [List.isEmpty_iff, hne]

theorem splitPath_empty : splitPath "" = [] := by decide

/-- Splitting a path extended with `"." ++ key` appends the key segment. -/

theorem splitPath_dot (p : String) (kcs : List Char) (hne : kcs ≠ [])
    (h : ∀ c ∈ kcs, isPathDelim c = false) :
    splitPath (p ++ "." ++ ⟨kcs⟩) = splitPath p ++ [⟨kcs⟩] := by
  unfold splitPath
  have hdata : (p ++ "." ++ (⟨kcs⟩ : String)).data = p.data ++ '.' :: kcs := by
    rw [String.data_append, String.data_append]
    simp
  rw [hdata, splitRaw_append_delim p.data kcs '.' (by decide), List.filter_append,
    List.map_append, splitRaw_no_delim kcs h]
  simp [List.isEmpty_iff, hne]

/-- Splitting a path extended with `"[" ++ idx ++ "]"` appends the index
segment, provided the index is made of non-delimiter characters. -/

theorem splitPath_bracket (p : String) (kcs : List Char) (hne : kcs ≠ [])
    (h : ∀ c ∈ kcs, isPathDelim c = false) :
    splitPath (p ++ "[" ++ ⟨kcs⟩ ++ "]") = splitPath p ++ [⟨kcs⟩] := by
  unfold splitPath
  have hdata : (p ++ "[" ++ (⟨kcs⟩ : String) ++ "]").data = p.data ++ '[' :: (kcs ++ [']']) := by
    rw [String.data_append, String.data_append, String.data_append]
    simp
  rw [hdata, splitRaw_append_delim p.data (kcs ++ [']']) '[' (by decide)]
  have h2 : kcs ++ [']'] = kcs ++ ']' :: [] := rfl
  rw [h2, splitRaw_append_delim kcs [] ']' (by decide), splitRaw_no_delim kcs h]
  simp only [List.filter_append, List.map_append]
  simp [List.isEmpty_iff, hne, splitRaw]

/-! The date pattern on the numerals the library prints. -/

theorem matchesDatePattern_all_digits {cs : List Char}
    (h : ∀ c ∈ cs, c.isDigit = true) : matchesDatePattern ⟨cs⟩ = false := by
  by_contra hb
  have ht : matchesDatePattern ⟨cs⟩ = true := by
    cases hq : matchesDatePattern ⟨cs⟩
    · exact absurd hq hb
    · rfl
  simp only [matchesDatePattern, Bool.and_eq_true, String.data] at ht
  have h4 : charAtIs cs 4 (fun c => c == '-') = true := ht.1.1.1.1.1.1.1.1.1.1.1.1.1.1.2
  unfold charAtIs at h4
  cases hg : cs.get? 4 with
  | none => rw [hg] at h4; simp at h4
  | some c =>
    rw [hg] at h4
    simp only [beq_iff_eq] at h4
    have hcm : c ∈ cs := List.get?_mem hg
    have := h c hcm
    rw [h4] at this
    simp at this

theorem matchesDatePattern_minus {cs : List Char} :
    matchesDatePattern ⟨'-' :: cs⟩ = false := by
  unfold matchesDatePattern
  simp [charAtIs]

/-- `matchesDatePattern` is false on every integer numeral. -/

theorem matchesDatePattern_intToStr (z : Int) : matchesDatePattern (intToStr z) = false := by
  cases z with
  | ofNat n =>
    unfold intToStr natToStr
    exact matchesDatePattern_all_digits (natDigitsAux_all_digits n n (le_refl n))
  | negSucc m =>
    unfold intToStr
    exact matchesDatePattern_minus

/-! The inference chain on particular inputs. -/

theorem inferString_empty : inferString "" = .null := rfl

theorem inferString_true : inferString "true" = .bool true := rfl

theorem inferString_false : inferString "false" = .bool false := rfl

theorem inferString_intToStr (z : Int) (hb : z.natAbs ≤ maxExactNat) :
    inferString (intToStr z) = .num z := by
  unfold inferString
  rw [matchesDatePattern_intToStr z, if_neg (by simp)]
  have hne : (intToStr z == "") = false := by
    cases hq : intToStr z == ""
    · rfl
    · exact absurd (beq_iff_eq .. |>.mp hq) (intToStr_ne_empty z)
  rw [if_pos (by rw [jsIsNumeric_intToStr z, hne]; rfl)]
  exact jsNumberVal_intToStr z hb

/-! ## A nested induction principle for `JVal` -/

theorem JVal.indOn (P : JVal → Prop)
    (hnull : P .null) (hundf : P .undefVal)
    (hstr : ∀ s, P (.str s)) (hnum : ∀ n, P (.num n)) (hnumF : ∀ src, P (.numF src))
    (hbool : ∀ b, P (.bool b))
    (hdate : ∀ iso, P (.date iso)) (hfile : ∀ n sz m, P (.file n sz m))
    (herro : ∀ m, P (.errObj m))
    (harr : ∀ xs, (∀ x ∈ xs, P x) → P (.arr xs))
    (hobj : ∀ kvs, (∀ kv ∈ kvs, P kv.2) → P (.obj kvs)) :
    ∀ v, P v
  | .null => hnull
  | .undefVal => hundf
  | .str s => hstr s
  | .num n => hnum n
  | .numF src => hnumF src
  | .bool b => hbool b
  | .date iso => hdate iso
  | .file n sz m => hfile n sz m
  | .errObj m => herro m
  | .arr xs => harr xs (fun x _hx =>
      JVal.indOn P hnull hundf hstr hnum hnumF hbool hdate hfile herro harr hobj x)
  | .obj kvs => hobj kvs (fun kv _hkv =>
      JVal.indOn P hnull hundf hstr hnum hnumF hbool hdate hfile herro harr hobj kv.2)
termination_by v => sizeOf v
decreasing_by
  · simp_wf
    have := List.sizeOf_lt_of_mem _hx
    omega
  · simp_wf
    have h1 := List.sizeOf_lt_of_mem _hkv
    obtain ⟨a, b⟩ := kv
    simp only [Prod.mk.sizeOf_spec] at h1 ⊢
    omega

/-! ## Claim C9: idempotence of the sanitizer -/

theorem lookupProp_sanitizeFields (kvs : List (String × JVal)) (key : String) :
    lookupProp (sanitizeFields kvs) key = (lookupProp kvs key).map sanitizeForTransport := by
  induction kvs with
  | nil => rfl
  | cons kv rest ih =>
    obtain ⟨k, v⟩ := kv
    by_cases hk : k = key
    · simp [sanitizeFields, lookupProp, hk]
    · simp [sanitizeFields, lookupProp, hk, ih]

/-- On an object without an own `constructor` property the sanitizer
recurses into the fields. -/

theorem sanitize_plain (kvs : List (String × JVal))
    (h : lookupProp kvs "constructor" = none) :
    sanitizeForTransport (.obj kvs) = .obj (sanitizeFields kvs) := by
  simp [sanitizeForTransport, h]

/-- On an object with an own `constructor` property the sanitizer returns
the object unchanged. -/

theorem sanitize_shadowed (kvs : List (String × JVal)) (v : JVal)
    (h : lookupProp kvs "constructor" = some v) :
    sanitizeForTransport (.obj kvs) = .obj kvs := by
  simp [sanitizeForTransport, h]

/-- Claim C9: `sanitizeForTransport` is idempotent — applying it to an
already-sanitized value (dates already ISO strings, files already
`{name, size, type, _isFile}` metadata objects, plain objects rebuilt
recursively, constructor-shadowed objects and every other value returned
unchanged) returns that value unchanged. -/

theorem sanitizeForTransport_idempotent (v : JVal) :
    sanitizeForTransport (sanitizeForTransport v) = sanitizeForTransport v := by
  induction v using JVal.indOn with
  | hnull => rfl
  | hundf => rfl
  | hstr s => rfl
  | hnum n => rfl
  | hnumF src => rfl
  | hbool b => rfl
  | hdate iso => rfl
  | hfile n sz m => rfl
  | herro m => rfl
  | harr xs ih =>
    show JVal.arr (sanitizeElems (sanitizeElems xs)) = JVal.arr (sanitizeElems xs)
    have : sanitizeElems (sanitizeElems xs) = sanitizeElems xs := by
      induction xs with
      | nil => rfl
      | cons x rest ihrest =>
        have hx := ih x (List.mem_cons_self x rest)
        have hr := ihrest (fun y hy => ih y (List.mem_cons_of_mem x hy))
        simp only [sanitizeElems] at hx hr ⊢
        rw [hx, hr]
    rw [this]
  | hobj kvs ih =>
    have hfix : sanitizeFields (sanitizeFields kvs) = sanitizeFields kvs := by
      induction kvs with
      | nil => rfl
      | cons kv rest ihrest =>
        obtain ⟨k, x⟩ := kv
        have hx := ih (k, x) (List.mem_cons_self (k, x) rest)
        have hr := ihrest (fun y hy => ih y (List.mem_cons_of_mem (k, x) hy))
        simp only [sanitizeFields] at hx hr ⊢
        rw [hr]
        exact congrArg (fun w => (k, w) :: sanitizeFields rest) hx
    cases hc : lookupProp kvs "constructor" with
    | some w =>
      rw [sanitize_shadowed kvs w hc, sanitize_shadowed kvs w hc]
    | none =>
      rw [sanitize_plain kvs hc,
        sanitize_plain (sanitizeFields kvs)
          (by rw [lookupProp_sanitizeFields, hc]; rfl), hfix]

/-! ## Claim C7: order of the type-inference chain -/

/-- Claim C7: in the decoder, inference on each string transport value is
tried in this order — (a) a value matching the ISO-8601 date-time prefix
pattern becomes a date value; (b) otherwise a non-empty value passing
JavaScript numeric coercion (`!isNaN(Number(value))`) becomes the number
`Number(value)`; (c) otherwise the literals `"true"`/`"false"` become
Booleans; (d) otherwise the empty string becomes `null`; (e) any other
string is kept unchanged. -/

theorem inferString_order_spec (value : String) :
    (matchesDatePattern value = true → inferString value = .date value) ∧
    (matchesDatePattern value = false → jsIsNumeric value = true → value ≠ "" →
      inferString value = jsNumberVal value) ∧
    (value = "true" → inferString value = .bool true) ∧
    (value = "false" → inferString value = .bool false) ∧
    (value = "" → inferString value = .null) ∧
    (matchesDatePattern value = false → jsIsNumeric value = false →
      value ≠ "true" → value ≠ "false" → value ≠ "" → inferString value = .str value) := by
  refine ⟨?_, ?_, ?_, ?_, ?_, ?_⟩
  · intro h
    unfold inferString
    rw [if_pos h]
  · intro hd hnum hne
    unfold inferString
    rw [if_neg (by simp [hd]), if_pos (by simp [hnum, hne])]
  · intro h; subst h; exact inferString_true
  · intro h; subst h; exact inferString_false
  · intro h; subst h; exact inferString_empty
  · intro hd hnum h1 h2 h3
    unfold inferString
    rw [if_neg (by simp [hd]), if_neg (by simp [hnum]),
      if_neg (by simp [h1, h2]), if_neg (by simp [h3])]

/-- Witness: the theorem applied down each branch of the chain, at
`"2023-12-01T10:30:00.000Z"`, `"1.5"` and `" 7"` (both numeric — the
fractional one kept opaque, the whitespace-padded one coerced to the
exact integer 7), `"true"`, `""` and `"hola mundo"`. -/

theorem inferString_order_spec_witness :
    inferString "2023-12-01T10:30:00.000Z" = .date "2023-12-01T10:30:00.000Z" ∧
    inferString "1.5" = jsNumberVal "1.5" ∧
    inferString " 7" = jsNumberVal " 7" ∧
    jsNumberVal " 7" = .num 7 ∧
    inferString "true" = .bool true ∧
    inferString "" = .null ∧
    inferString "hola mundo" = .str "hola mundo" :=
  ⟨(inferString_order_spec _).1 (by decide),
   (inferString_order_spec "1.5").2.1 (by decide) (by decide) (by decide),
   (inferString_order_spec " 7").2.1 (by decide) (by decide) (by decide),
   rfl,
   (inferString_order_spec "true").2.2.1 rfl,
   (inferString_order_spec "").2.2.2.2.1 rfl,
   (inferString_order_spec "hola mundo").2.2.2.2.2 (by decide) (by decide)
     (by decide) (by decide) (by decide)⟩

/-! Association-list and field lemmas. -/

theorem setPair_absent (l : List (String × Build)) (k : String) (b : Build)
    (h : findField l k = none) : setPair l k b = l ++ [(k, b)] := by
  induction l with
  | nil => rfl
  | cons kv rest ih =>
    obtain ⟨k0, b0⟩ := kv
    by_cases hk : k0 = k
    · simp [findField, hk] at h
    · simp only [findField, hk, beq_iff_eq, if_false, if_neg] at h
      simp [setPair, hk, ih h]

theorem findField_setPair_self (l : List (String × Build)) (k : String) (b : Build) :
    findField (setPair l k b) k = some b := by
  induction l with
  | nil => simp [setPair, findField]
  | cons kv rest ih =>
    obtain ⟨k0, b0⟩ := kv
    by_cases hk : k0 = k
    · simp [setPair, findField, hk]
    · simp [setPair, findField, hk, ih]

theorem setPair_setPair (l : List (String × Build)) (k : String) (b c : Build) :
    setPair (setPair l k b) k c = setPair l k c := by
  induction l with
  | nil => simp [setPair]
  | cons kv rest ih =>
    obtain ⟨k0, b0⟩ := kv
    by_cases hk : k0 = k
    · simp [setPair, hk]
    · simp [setPair, hk, ih]

theorem setPair_found_same (l : List (String × Build)) (k : String) (c : Build)
    (h : findField l k = some c) : setPair l k c = l := by
  induction l with
  | nil => simp [findField] at h
  | cons kv rest ih =>
    obtain ⟨k0, b0⟩ := kv
    by_cases hk : k0 = k
    · simp only [findField, hk, beq_self_eq_true, if_true, if_pos] at h
      injection h with h
      simp [setPair, hk, h]
    · simp only [findField, hk, beq_iff_eq, if_false, if_neg] at h
      simp [setPair, hk, ih h]

theorem findField_append_none (l l2 : List (String × Build)) (k : String)
    (h : findField l k = none) (h2 : findField l2 k = none) :
    findField (l ++ l2) k = none := by
  induction l with
  | nil => exact h2
  | cons kv rest ih =>
    obtain ⟨k0, b0⟩ := kv
    by_cases hk : k0 = k
    · simp [findField, hk] at h
    · simp only [findField, hk, beq_iff_eq, if_false, if_neg] at h
      simp only [List.cons_append, findField]
      rw [if_neg (by simp [hk])]
      exact ih h

theorem getField_setField_self (b : Build) (k : String) (c : Build)
    (hb : isContainer b = true) : getField (setField b k c) k = some c := by
  cases b with
  | leaf v props => simp [isContainer] at hb
  | arrB props => simp [setField, getField, findField_setPair_self]
  | objB props => simp [setField, getField, findField_setPair_self]

theorem setField_setField (b : Build) (k : String) (c d : Build) :
    setField (setField b k c) k d = setField b k d := by
  cases b with
  | leaf v props => rfl
  | arrB props => simp [setField, setPair_setPair]
  | objB props => simp [setField, setPair_setPair]

theorem setField_getField_self (b : Build) (k : String) (c : Build)
    (h : getField b k = some c) : setField b k c = b := by
  cases b with
  | leaf v props => simp [getField] at h
  | arrB props => simp [setField, setPair_found_same props k c h]
  | objB props => simp [setField, setPair_found_same props k c h]

theorem isContainer_setField (b : Build) (k : String) (c : Build)
    (hb : isContainer b = true) : isContainer (setField b k c) = true := by
  cases b with
  | leaf v props => simp [isContainer] at hb
  | arrB props => rfl
  | objB props => rfl

/-! Bridges between the throwing walk operations and the total
proof-layer operations, on containers. -/

theorem getFieldE_container (b : Build) (k : String) (hb : isContainer b = true) :
    getFieldE b k = .ok (getField b k) := by
  cases b with
  | leaf v props => simp [isContainer] at hb
  | arrB props => rfl
  | objB props => rfl

theorem assignProp_container (b : Build) (k : String) (c : Build)
    (hb : isContainer b = true) : assignProp b k c = .ok (setField b k c) := by
  cases b with
  | leaf v props => simp [isContainer] at hb
  | arrB props => rfl
  | objB props => rfl

/-! ## Claim C4: which segments create sequences -/

/-- When `executeStart` dispatches a request, the new session carries that
request's token as the current one, is loading, records the trigger time,
and has aborted the previously current controller. -/

theorem executeStart_started {cfg : HookConfig} {s s' : Session} {lv : Bool}
    {p : Option Payload} {now : Int} {t : Nat} {fd : List (String × FormVal)}
    (h : executeStart cfg s lv p now = (s', some (t, fd))) :
    s'.currentToken = some t ∧ s'.loading = true ∧ s'.lastRequestTime = now ∧
    t = s.nextToken ∧
    s'.aborted = (match s.currentToken with
      | some t0 => t0 :: s.aborted
      | none => s.aborted) := by
  unfold executeStart at h
  split at h
  · simp at h
  · cases p with
    | none =>
      simp only [] at h
      split at h
      · simp at h
      · injection h with h1 h2
        injection h2 with h2
        injection h2 with h2a h2b
        subst h1
        subst h2a
        exact ⟨rfl, rfl, rfl, rfl, rfl⟩
    | some q =>
      simp only [] at h
      split at h
      · simp at h
      · injection h with h1 h2
        injection h2 with h2
        injection h2 with h2a h2b
        subst h1
        subst h2a
        exact ⟨rfl, rfl, rfl, rfl, rfl⟩

/-- Claim C2, corrected: when a second `execute` call actually dispatches
a request (it passes the condition gate and the deduplication guard,
whatever `loading` value each call's render closure captured) while the
first request is still in flight, the first call's eventual result, on
arrival, changes nothing: neither `data`, `error`, `loading` nor any
other session field, and no callback fires — its cancellation token was
superseded, so the result is silently discarded. -/

theorem superseded_result_discarded (cfg : HookConfig) (s0 s1 s2 : Session)
    (lv1 lv2 : Bool) (p1 p2 : Option Payload) (now1 now2 : Int) (t1 t2 : Nat)
    (fd1 fd2 : List (String × FormVal)) (resp : HookResp)
    (h1 : executeStart cfg s0 lv1 p1 now1 = (s1, some (t1, fd1)))
    (h2 : executeStart cfg s1 lv2 p2 now2 = (s2, some (t2, fd2))) :
    completeRequest cfg s2 t1 resp = (s2, []) := by
  have e1 := executeStart_started h1
  have e2 := executeStart_started h2
  have hmem : s2.aborted.contains t1 = true := by
    rw [e2.2.2.2.2, e1.1]
    simp
  unfold completeRequest
  rw [if_pos hmem]

/-- Witness: two dispatched calls (at times 0 and 3000, outside the
deduplication window) on a fresh session; the first call's token is 0 and
its success result is discarded. -/

theorem superseded_result_discarded_witness :
    completeRequest ⟨none, 0, 2000, true, true⟩
      (executeStart ⟨none, 0, 2000, true, true⟩
        (executeStart ⟨none, 0, 2000, true, true⟩ initialSession false none 0).1
        true none 3000).1
      0 (.success "m" (.num 5)) =
    ((executeStart ⟨none, 0, 2000, true, true⟩
        (executeStart ⟨none, 0, 2000, true, true⟩ initialSession false none 0).1
        true none 3000).1,
      []) :=
  superseded_result_discarded ⟨none, 0, 2000, true, true⟩ initialSession
    (executeStart ⟨none, 0, 2000, true, true⟩ initialSession false none 0).1
    (executeStart ⟨none, 0, 2000, true, true⟩
      (executeStart ⟨none, 0, 2000, true, true⟩ initialSession false none 0).1
      true none 3000).1
    false true none none 0 3000 0 1 [] [] (.success "m" (.num 5)) rfl rfl

/-- Counterexample to claim C2 as stated: with the default deduplication
interval, a second `execute` call 100ms after the first — made from a
re-rendered closure that sees `loading = true` — is swallowed by the
deduplication guard, so nothing supersedes the first request: its
result, on arrival, does commit, and `data` changes from `none` to the
response payload.  "Calling `execute` a second time before the first
resolves" therefore does not by itself guarantee the first result is
discarded. -/

theorem superseded_claim_dedup_cex :
    (executeStart ⟨none, 0, 2000, true, true⟩
      (executeStart ⟨none, 0, 2000, true, true⟩ initialSession false none 0).1
      true none 100).2 = none ∧
    (completeRequest ⟨none, 0, 2000, true, true⟩
      (executeStart ⟨none, 0, 2000, true, true⟩
        (executeStart ⟨none, 0, 2000, true, true⟩ initialSession false none 0).1
        true none 100).1
      0 (.success "m" (.num 5))).1.data = some (.num 5) ∧
    (executeStart ⟨none, 0, 2000, true, true⟩
      (executeStart ⟨none, 0, 2000, true, true⟩ initialSession false none 0).1
      true none 100).1.data = none := by
  refine ⟨rfl, rfl, rfl⟩

/-- Claim C6, corrected: a second `execute` call within
`dedupingInterval` of a dispatched first call is deduplicated — it
dispatches nothing and leaves the session unchanged except that a
payload passed to it is still remembered — provided the closure making
the second call has observed the in-flight state (its captured `loading`
variable is `true`, i.e. React re-rendered after the first dispatch).
A second call whose closure still sees the pre-dispatch `loading =
false` is not deduplicated and dispatches the action a second time (see
the counterexample). -/

theorem dedup_second_call_noop (cfg : HookConfig) (s0 s1 : Session)
    (lv1 : Bool) (p1 p2 : Option Payload) (now1 now2 : Int) (t1 : Nat)
    (fd1 : List (String × FormVal))
    (hc : cfg.condition ≠ some false)
    (h1 : executeStart cfg s0 lv1 p1 now1 = (s1, some (t1, fd1)))
    (h2 : now2 - now1 < cfg.dedupingInterval) :
    executeStart cfg s1 true p2 now2 =
      ((match p2 with
        | some p => { s1 with lastRequestData := some p }
        | none => s1), none) := by
  have e1 := executeStart_started h1
  unfold executeStart
  rw [if_neg hc]
  cases p2 with
  | none =>
    simp only []
    rw [if_pos ⟨by rw [e1.2.2.1]; exact h2, by trivial⟩]
  | some p =>
    simp only []
    rw [if_pos ⟨by show now2 - s1.lastRequestTime < _; rw [e1.2.2.1]; exact h2, by trivial⟩]

/-- Witness: a dispatched call at time 0 followed, from a re-rendered
closure, by a call at time 100 on a default 2000ms window: the second
call dispatches nothing and only re-stores its payload. -/

theorem dedup_second_call_noop_witness :
    executeStart ⟨none, 0, 2000, true, true⟩
      (executeStart ⟨none, 0, 2000, true, true⟩ initialSession false none 0).1
      true (some (.record (.obj []))) 100 =
    ({ (executeStart ⟨none, 0, 2000, true, true⟩ initialSession false none 0).1 with
        lastRequestData := some (.record (.obj [])) }, none) :=
  dedup_second_call_noop ⟨none, 0, 2000, true, true⟩ initialSession
    (executeStart ⟨none, 0, 2000, true, true⟩ initialSession false none 0).1
    false none (some (.record (.obj []))) 0 100 0 [] (by decide) rfl (by decide)

/-- Counterexample to claim C6 as stated: the second call is neither
guaranteed to be a no-op on session state nor even guaranteed to skip
the second invocation.  (i) A payload passed to a deduplicated call is
stored in `lastRequestDataRef` before the guard returns, so session
state changes; (ii) worse, the guard reads the `loading` variable
captured by the calling closure — a second call made in the same tick
(before React re-renders) sees the stale `loading = false`, passes the
guard although the session is loading and only 100ms elapsed, and
dispatches the wrapped action a second time. -/

theorem dedup_stale_loading_cex :
    (executeStart ⟨none, 0, 2000, true, true⟩
      (executeStart ⟨none, 0, 2000, true, true⟩ initialSession false none 0).1
      true (some (.record (.obj [("x", .str "1")]))) 100).2 = none ∧
    (executeStart ⟨none, 0, 2000, true, true⟩
      (executeStart ⟨none, 0, 2000, true, true⟩ initialSession false none 0).1
      true (some (.record (.obj [("x", .str "1")]))) 100).1.lastRequestData =
        some (.record (.obj [("x", .str "1")])) ∧
    (executeStart ⟨none, 0, 2000, true, true⟩ initialSession false none 0).1.lastRequestData =
        none ∧
    (executeStart ⟨none, 0, 2000, true, true⟩ initialSession false none 0).1.loading = true ∧
    (executeStart ⟨none, 0, 2000, true, true⟩
      (executeStart ⟨none, 0, 2000, true, true⟩ initialSession false none 0).1
      false none 100).2 = some (1, []) := by
  refine ⟨rfl, rfl, rfl, rfl, rfl⟩

/-- Claim C8, corrected: a non-superseded completion with a Failure
result stores `message || "Operation failed"` as the error — the failure
message itself only when it is nonempty, the default string when it is
empty — fires the error callback with that same string, sets `loading`
false, and leaves `data` (and everything else) untouched. -/

theorem failure_commit (cfg : HookConfig) (s : Session) (t : Nat) (msg : String)
    (hcb : cfg.hasOnError = true)
    (hna : s.aborted.contains t = false) :
    completeRequest cfg s t (.failure msg) =
      ({ s with
          error := some (if msg = "" then "Operation failed" else msg),
          loading := false },
        [.onErrorCalled (if msg = "" then "Operation failed" else msg)]) ∧
    (completeRequest cfg s t (.failure msg)).1.data = s.data := by
  have hmain : completeRequest cfg s t (.failure msg) =
      ({ s with
          error := some (if msg = "" then "Operation failed" else msg),
          loading := false },
        [.onErrorCalled (if msg = "" then "Operation failed" else msg)]) := by
    unfold completeRequest
    have hcond : ¬(s.aborted.contains t = true) := by simp only [hna]; simp
    rw [if_neg hcond]
    simp [hcb]
  exact ⟨hmain, by rw [hmain]⟩

/-- Witness: a failure with message `"boom"` for the live token 0 on a
session that dispatched it. -/

theorem failure_commit_witness :
    completeRequest ⟨none, 0, 2000, true, true⟩
      (executeStart ⟨none, 0, 2000, true, true⟩ initialSession false none 0).1 0
      (.failure "boom") =
      ({ (executeStart ⟨none, 0, 2000, true, true⟩ initialSession false none 0).1 with
          error := some "boom", loading := false }, [.onErrorCalled "boom"]) ∧
    (completeRequest ⟨none, 0, 2000, true, true⟩
      (executeStart ⟨none, 0, 2000, true, true⟩ initialSession false none 0).1 0
      (.failure "boom")).1.data =
      (executeStart ⟨none, 0, 2000, true, true⟩ initialSession false none 0).1.data :=
  failure_commit ⟨none, 0, 2000, true, true⟩
    (executeStart ⟨none, 0, 2000, true, true⟩ initialSession false none 0).1 0 "boom"
    rfl rfl

/-- Counterexample to claim C8 as stated: a reachable Failure carrying
the empty message does not store that message — the error committed is
the default `"Operation failed"`, not the (empty) failure message. -/

theorem failure_default_message_cex :
    (completeRequest ⟨none, 0, 2000, true, true⟩
      (executeStart ⟨none, 0, 2000, true, true⟩ initialSession false none 0).1 0
      (.failure "")).1.error = some "Operation failed" ∧
    "Operation failed" ≠ "" := by
  refine ⟨rfl, by decide⟩

/-- Claim C10: an `execute` call with no payload, while no payload is
remembered, still dispatches the wrapped action — with the encoding of
the empty mapping `{}`, which is the empty flat transport. -/

theorem execute_empty_payload (cfg : HookConfig) (s : Session) (lv : Bool) (now : Int)
    (hc : cfg.condition ≠ some false)
    (hd : ¬(now - s.lastRequestTime < cfg.dedupingInterval ∧ lv = true))
    (hl : s.lastRequestData = none) :
    (executeStart cfg s lv none now).2 =
      some (s.nextToken, objectToFormData (.obj []) "") ∧
    objectToFormData (.obj []) "" = [] := by
  constructor
  · unfold executeStart
    rw [if_neg hc]
    simp only []
    rw [if_neg hd]
    simp [hl, payloadToFormData]
  · rfl

/-- Witness: a fresh session with nothing remembered dispatches token 0
with the empty transport. -/

theorem execute_empty_payload_witness :
    (executeStart ⟨none, 0, 2000, true, true⟩ initialSession false none 0).2 =
      some (initialSession.nextToken, objectToFormData (.obj []) "") ∧
    objectToFormData (.obj []) "" = [] :=
  execute_empty_payload ⟨none, 0, 2000, true, true⟩ initialSession false 0
    (by decide) (by decide) rfl

/-! ## The wrapper claims -/

theorem setSegments_leafAssign (b : Build) (k : String) (fv : FormVal)
    (hb : isContainer b = true) :
    setSegments b [k] fv = .ok (setField b k (.leaf (inferVal fv) [])) := by
  show assignProp b k (.leaf (inferVal fv) []) = _
  rw [assignProp_container b k _ hb]

theorem setSegments_descend (b c c2 : Build) (k : String) (segs : List String)
    (v : FormVal) (hb : isContainer b = true) (h : getField b k = some c)
    (hs : setSegments c segs v = .ok c2) (hne : segs ≠ []) :
    setSegments b (k :: segs) v = .ok (setField b k c2) := by
  cases segs with
  | nil => exact absurd rfl hne
  | cons k2 rest =>
    have h1 : getFieldE b k = .ok (some c) := by rw [getFieldE_container b k hb, h]
    simp only [setSegments, h1, hs]
    exact assignProp_container b k c2 hb

theorem setSegments_create (b : Build) (k k2 : String) (rest : List String)
    (v : FormVal) (c2 : Build) (hb : isContainer b = true) (h : getField b k = none)
    (hs : setSegments (if jsIsNumeric k2 then Build.arrB [] else Build.objB [])
      (k2 :: rest) v = .ok c2) :
    setSegments b (k :: k2 :: rest) v = .ok (setField b k c2) := by
  have h1 : getFieldE b k = .ok none := by rw [getFieldE_container b k hb, h]
  simp only [setSegments, h1, hs]
  exact assignProp_container b k c2 hb

theorem insertEntries_single_leaf (b : Build) (k : String) (fv : FormVal)
    (hb : isContainer b = true) :
    insertEntries b [([k], fv)] = .ok (setField b k (.leaf (inferVal fv) [])) := by
  cases b with
  | leaf v props => simp [isContainer] at hb
  | arrB props => rfl
  | objB props => rfl

theorem insertEntries_append_ok (l1 l2 : List (List String × FormVal)) (b b1 : Build)
    (h : insertEntries b l1 = .ok b1) :
    insertEntries b (l1 ++ l2) = insertEntries b1 l2 := by
  induction l1 generalizing b with
  | nil =>
    simp only [insertEntries] at h
    injection h with h
    subst h
    rfl
  | cons e rest ih =>
    simp only [List.cons_append, insertEntries] at h ⊢
    cases hs : setSegments b e.1 e.2 with
    | error err =>
      simp only [hs] at h
      simp at h
    | ok b2 =>
      simp only [hs] at h ⊢
      exact ih b2 h

theorem insertEntries_descend_ok (ents : List (List String × FormVal)) (b c c2 : Build)
    (k : String) (hb : isContainer b = true) (h : getField b k = some c)
    (hok : insertEntries c ents = .ok c2)
    (hne : ∀ e ∈ ents, e.1 ≠ []) :
    insertEntries b (ents.map (fun e => (k :: e.1, e.2))) = .ok (setField b k c2) := by
  induction ents generalizing b c with
  | nil =>
    simp only [insertEntries] at hok
    injection hok with hok
    subst hok
    simp only [List.map_nil, insertEntries]
    rw [setField_getField_self b k c h]
  | cons e rest ih =>
    simp only [insertEntries] at hok
    cases hs : setSegments c e.1 e.2 with
    | error err =>
      simp only [hs] at hok
      simp at hok
    | ok cmid =>
      simp only [hs] at hok
      simp only [List.map_cons, insertEntries]
      have hstep := setSegments_descend b c cmid k e.1 e.2 hb h hs
        (hne e (List.mem_cons_self e rest))
      simp only [hstep]
      have hrec := ih (setField b k cmid) cmid (isContainer_setField b k cmid hb)
        (getField_setField_self b k cmid hb) hok
        (fun e2 he2 => hne e2 (List.mem_cons_of_mem e he2))
      rw [setField_setField] at hrec
      exact hrec

theorem insertEntries_fresh_ok (b : Build) (k s0 : String) (t0 : List String)
    (v0 : FormVal) (rest : List (List String × FormVal)) (c2 : Build)
    (hb : isContainer b = true) (h : getField b k = none)
    (hok : insertEntries (if jsIsNumeric s0 then Build.arrB [] else Build.objB [])
      ((s0 :: t0, v0) :: rest) = .ok c2)
    (hrest : ∀ e ∈ rest, e.1 ≠ []) :
    insertEntries b (((s0 :: t0, v0) :: rest).map (fun e => (k :: e.1, e.2))) =
      .ok (setField b k c2) := by
  simp only [insertEntries] at hok
  cases hs : setSegments (if jsIsNumeric s0 then Build.arrB [] else Build.objB [])
      (s0 :: t0) v0 with
  | error err =>
    simp only [hs] at hok
    simp at hok
  | ok cmid =>
    simp only [hs] at hok
    simp only [List.map_cons, insertEntries]
    have hstep := setSegments_create b k s0 t0 v0 cmid hb h hs
    simp only [hstep]
    have hrec := insertEntries_descend_ok rest (setField b k cmid) cmid c2 k
      (isContainer_setField b k cmid hb) (getField_setField_self b k cmid hb) hok hrest
    rw [setField_setField] at hrec
    exact hrec

/-! Numerals as keys, and segment-shape facts. -/

theorem natToStr_inj {a b : Nat} (h : natToStr a = natToStr b) : a = b := by
  have ha := parseDigits_natDigitsAux a a (le_refl a)
  have hb := parseDigits_natDigitsAux b b (le_refl b)
  have hd : natDigitsAux a a = natDigitsAux b b := congrArg String.data h
  rw [hd, hb] at ha
  injection ha with ha
  exact ha.symm

theorem segArr_segs_ne_nil (xs : List JVal) (i : Nat) :
    ∀ e ∈ segArr xs i, e.1 ≠ [] := by
  induction xs generalizing i with
  | nil => intro e he; simp [segArr] at he
  | cons x rest ih =>
    intro e he
    simp only [segArr, List.mem_append, List.mem_map] at he
    rcases he with ⟨e0, _, rfl⟩ | he
    · exact List.cons_ne_nil _ _
    · exact ih (i + 1) e he

theorem segObj_segs_ne_nil (kvs : List (String × JVal)) :
    ∀ e ∈ segObj kvs, e.1 ≠ [] := by
  induction kvs with
  | nil => intro e he; simp [segObj] at he
  | cons kv rest ih =>
    obtain ⟨k, x⟩ := kv
    intro e he
    simp only [segObj, List.mem_append, List.mem_map] at he
    rcases he with ⟨e0, _, rfl⟩ | he
    · exact List.cons_ne_nil _ _
    · exact ih e he

theorem string_ne_empty_data {s : String} (h : s ≠ "") : s.data ≠ [] := by
  intro hd
  apply h
  obtain ⟨cs⟩ := s
  simp only [String.data] at hd
  rw [hd]

theorem segEntriesOf_ne_nil (v : JVal) (hv : goodVal v = true) :
    segEntriesOf v ≠ [] := by
  induction v using JVal.indOn with
  | hnull => simp [segEntriesOf]
  | hundf => simp [segEntriesOf]
  | hstr s => simp [segEntriesOf]
  | hnum n => simp [segEntriesOf]
  | hnumF src => simp [goodVal] at hv
  | hbool b => simp [segEntriesOf]
  | hdate iso => simp [goodVal] at hv
  | hfile n sz m => simp [goodVal] at hv
  | herro m => simp [goodVal] at hv
  | harr xs ih =>
    simp only [goodVal, Bool.and_eq_true] at hv
    cases xs with
    | nil => simp at hv
    | cons x rest =>
      have hx : goodVal x = true := by
        have := hv.2
        simp only [goodElems, Bool.and_eq_true] at this
        exact this.1
      have := ih x (List.mem_cons_self x rest) hx
      simp only [segEntriesOf, segArr]
      intro hq
      rcases List.append_eq_nil.mp hq with ⟨h1, _⟩
      exact this (List.map_eq_nil_iff.mp h1)
  | hobj kvs ih =>
    simp only [goodVal, Bool.and_eq_true] at hv
    cases kvs with
    | nil => simp at hv
    | cons kv rest =>
      obtain ⟨k, x⟩ := kv
      have hx : goodVal x = true := by
        have := hv.2
        simp only [goodFields, Bool.and_eq_true] at this
        exact this.1.2
      have := ih (k, x) (List.mem_cons_self (k, x) rest) hx
      simp only [segEntriesOf, segObj]
      intro hq
      rcases List.append_eq_nil.mp hq with ⟨h1, _⟩
      exact this (List.map_eq_nil_iff.mp h1)

/-! Path-splitting of the keys the encoder builds. -/

theorem goodKey_facts (k : String) (h : goodKey k = true) :
    k.data ≠ [] ∧ (∀ c ∈ k.data, isPathDelim c = false) ∧ jsIsNumeric k = false ∧
    objectProtoProps.contains k = false := by
  simp only [goodKey, Bool.and_eq_true, Bool.not_eq_true'] at h
  obtain ⟨⟨⟨h1, h2⟩, h3⟩, h4⟩ := h
  refine ⟨?_, ?_, h3, h4⟩
  · exact string_ne_empty_data (by simpa using h1)
  · intro c hc
    rw [List.all_eq_true] at h2
    simpa using h2 c hc

/-- Good fields never contain the key `"constructor"`, so neither the
encoder nor the sanitizer guard fires on them. -/

theorem goodFields_no_ctor (kvs : List (String × JVal)) (h : goodFields kvs = true) :
    lookupProp kvs "constructor" = none := by
  induction kvs with
  | nil => rfl
  | cons kv rest ih =>
    obtain ⟨k, v⟩ := kv
    simp only [goodFields, Bool.and_eq_true] at h
    obtain ⟨⟨⟨hk, _⟩, _⟩, hrest⟩ := h
    have hkc : ¬(k = "constructor") := by
      intro hq
      subst hq
      exact absurd hk (by decide)
    simp only [lookupProp]
    rw [if_neg (by simpa using hkc)]
    exact ih hrest

/-- On an object without an own `constructor` property the encoder
recurses into the fields. -/

theorem appendToFormData_plain (kvs : List (String × JVal)) (key : String)
    (h : lookupProp kvs "constructor" = none) :
    appendToFormData (.obj kvs) key = appendObjectFields kvs key := by
  simp [appendToFormData, h]

theorem splitPath_joinKey (p k : String) (h : goodKey k = true) :
    splitPath (if p = "" then k else p ++ "." ++ k) = splitPath p ++ [k] := by
  obtain ⟨h1, h2, _, _⟩ := goodKey_facts k h
  by_cases hp : p = ""
  · rw [if_pos hp, hp, splitPath_empty, List.nil_append]
    have : k = (⟨k.data⟩ : String) := by
      obtain ⟨cs⟩ := k
      rfl
    rw [this]
    exact splitPath_single k.data h1 h2
  · rw [if_neg hp]
    have : k = (⟨k.data⟩ : String) := by
      obtain ⟨cs⟩ := k
      rfl
    rw [this]
    exact splitPath_dot p k.data h1 h2

theorem splitPath_index (p : String) (i : Nat) :
    splitPath (p ++ "[" ++ natToStr i ++ "]") = splitPath p ++ [natToStr i] := by
  have h2 : ∀ c ∈ natDigitsAux i i, isPathDelim c = false :=
    fun c hc => isDigit_not_delim (natDigitsAux_all_digits i i (le_refl i) c hc)
  exact splitPath_bracket p (natDigitsAux i i) (natDigitsAux_ne_nil i i) h2

/-- `Number()` coercion never produces a container, so its canonical
graph is a leaf. -/

theorem toBuild_jsNumberValL (t : List Char) :
    toBuild (jsNumberValL t) = .leaf (jsNumberValL t) [] := by
  cases t with
  | nil => rfl
  | cons c rest =>
    simp only [jsNumberValL]
    split_ifs <;> rfl

/-- `inferString` never produces a container, so its canonical graph is a
leaf. -/

theorem toBuild_inferString (s : String) :
    toBuild (inferString s) = .leaf (inferString s) [] := by
  unfold inferString
  split_ifs <;> first | rfl | exact toBuild_jsNumberValL (jsTrim s.data)

theorem formDataToObject_eq_insert (fd : List (String × FormVal)) :
    formDataToObject fd =
      insertEntries (.objB []) (fd.map (fun kv => (splitPath kv.1, kv.2))) := by
  have aux : ∀ (l : List (String × FormVal)) (b : Build),
      formDataToObjectAux b l =
        insertEntries b (l.map (fun kv => (splitPath kv.1, kv.2))) := by
    intro l
    induction l with
    | nil => intro b; rfl
    | cons kv rest ih =>
      intro b
      simp only [formDataToObjectAux, insertEntries, List.map_cons, setNestedValue]
      cases hs : setSegments b (splitPath kv.1) kv.2 with
      | error e => simp only [hs]
      | ok b2 =>
        simp only [hs]
        exact ih b2
  exact aux fd _

/-- The encoder's entries for `v` under path `p`, read at segment level:
they are exactly `v`'s segment entries prefixed by `p`'s segments. -/

theorem entrySegs_append (v : JVal) :
    goodVal v = true → ∀ p : String,
    (appendToFormData v p).map (fun kv => (splitPath kv.1, kv.2)) =
      (segEntriesOf v).map (fun e => (splitPath p ++ e.1, e.2)) := by
  induction v using JVal.indOn with
  | hnull => intro _ p; simp [appendToFormData, segEntriesOf]
  | hundf => intro _ p; simp [appendToFormData, segEntriesOf]
  | hstr s => intro _ p; simp [appendToFormData, segEntriesOf]
  | hnum n => intro _ p; simp [appendToFormData, segEntriesOf]
  | hnumF src => intro hv; simp [goodVal] at hv
  | hbool b => intro _ p; simp [appendToFormData, segEntriesOf]
  | hdate iso => intro hv; simp [goodVal] at hv
  | hfile n sz m => intro hv; simp [goodVal] at hv
  | herro m => intro hv; simp [goodVal] at hv
  | harr xs ih =>
    intro hv p
    have hg : goodElems xs = true := by
      simp only [goodVal, Bool.and_eq_true] at hv
      exact hv.2
    show (appendArrayItems xs 0 p).map _ = (segArr xs 0).map _
    have aux : ∀ (l : List JVal), (∀ x ∈ l, x ∈ xs) → goodElems l = true →
        ∀ (i : Nat) (q : String),
        (appendArrayItems l i q).map (fun kv => (splitPath kv.1, kv.2)) =
          (segArr l i).map (fun e => (splitPath q ++ e.1, e.2)) := by
      intro l
      induction l with
      | nil => intro _ _ i q; rfl
      | cons x rest ihl =>
        intro hmem hge i q
        simp only [goodElems, Bool.and_eq_true] at hge
        simp only [appendArrayItems, segArr, List.map_append]
        congr 1
        · rw [ih x (hmem x (List.mem_cons_self x rest)) hge.1
            (q ++ "[" ++ natToStr i ++ "]")]
          simp only [splitPath_index, List.map_map]
          congr 1
          funext e
          simp [List.append_assoc]
        · exact ihl (fun y hy => hmem y (List.mem_cons_of_mem x hy)) hge.2 (i + 1) q
    exact aux xs (fun x hx => hx) hg 0 p
  | hobj kvs ih =>
    intro hv p
    have hg : goodFields kvs = true := by
      simp only [goodVal, Bool.and_eq_true] at hv
      exact hv.2
    rw [appendToFormData_plain kvs p (goodFields_no_ctor kvs hg)]
    show (appendObjectFields kvs p).map _ = (segObj kvs).map _
    have aux : ∀ (l : List (String × JVal)), (∀ kv ∈ l, kv ∈ kvs) →
        goodFields l = true → ∀ (q : String),
        (appendObjectFields l q).map (fun kv => (splitPath kv.1, kv.2)) =
          (segObj l).map (fun e => (splitPath q ++ e.1, e.2)) := by
      intro l
      induction l with
      | nil => intro _ _ q; rfl
      | cons kv rest ihl =>
        obtain ⟨k, x⟩ := kv
        intro hmem hge q
        simp only [goodFields, Bool.and_eq_true] at hge
        simp only [appendObjectFields, segObj, List.map_append]
        congr 1
        · rw [ih (k, x) (hmem (k, x) (List.mem_cons_self (k, x) rest)) hge.1.2
            (if q = "" then k else q ++ "." ++ k)]
          simp only [splitPath_joinKey q k hge.1.1.1, List.map_map]
          congr 1
          funext e
          simp [List.append_assoc]
        · exact ihl (fun y hy => hmem y (List.mem_cons_of_mem (k, x) hy)) hge.2 q
    exact aux kvs (fun kv hkv => hkv) hg p

/-- Inserting the segment entries of good array elements (from index `i`)
into a partially built array extends it with their canonical graphs, in
index order, without throwing. -/

theorem arrAcc (xs : List JVal)
    (IH : ∀ x ∈ xs, goodVal x = true → ∀ (b : Build) (k : String),
      isContainer b = true → getField b k = none →
      insertEntries b ((segEntriesOf x).map (fun e => (k :: e.1, e.2))) =
        .ok (setField b k (toBuild (reinterpret x))))
    (hg : goodElems xs = true) :
    ∀ (i : Nat) (done : List (String × Build)),
      (∀ j, i ≤ j → findField done (natToStr j) = none) →
      insertEntries (.arrB done) (segArr xs i) =
        .ok (.arrB (done ++ toBuildElems (reinterpretElems xs) i)) := by
  induction xs with
  | nil =>
    intro i done _
    simp [segArr, insertEntries, reinterpretElems, toBuildElems]
  | cons x rest ih =>
    intro i done hdone
    have hgc : goodVal x = true ∧ goodElems rest = true := by
      simp only [goodElems, Bool.and_eq_true] at hg
      exact hg
    have hbatch := IH x (List.mem_cons_self x rest) hgc.1 (.arrB done) (natToStr i) rfl
      (hdone i (le_refl i))
    have habs : setField (Build.arrB done) (natToStr i) (toBuild (reinterpret x)) =
        .arrB (done ++ [(natToStr i, toBuild (reinterpret x))]) := by
      simp [setField, setPair_absent done (natToStr i) _ (hdone i (le_refl i))]
    rw [habs] at hbatch
    simp only [segArr]
    rw [insertEntries_append_ok _ _ _ _ hbatch]
    rw [ih (fun y hy => IH y (List.mem_cons_of_mem x hy)) hgc.2 (i + 1)
      (done ++ [(natToStr i, toBuild (reinterpret x))]) ?hfresh]
    · simp [reinterpretElems, toBuildElems, List.append_assoc]
    case hfresh =>
      intro j hj
      apply findField_append_none
      · exact hdone j (by omega)
      · simp only [findField]
        rw [if_neg]
        intro hq
        have := natToStr_inj (beq_iff_eq .. |>.mp hq)
        omega

/-- Inserting the segment entries of good object fields into a partially
built object extends it with their canonical graphs, in field order,
without throwing. -/

theorem objAcc (kvs : List (String × JVal))
    (IH : ∀ kv ∈ kvs, goodVal kv.2 = true → ∀ (b : Build) (k : String),
      isContainer b = true → getField b k = none →
      insertEntries b ((segEntriesOf kv.2).map (fun e => (k :: e.1, e.2))) =
        .ok (setField b k (toBuild (reinterpret kv.2))))
    (hg : goodFields kvs = true) :
    ∀ done : List (String × Build),
      (∀ kv ∈ kvs, findField done kv.1 = none) →
      insertEntries (.objB done) (segObj kvs) =
        .ok (.objB (done ++ toBuildFields (reinterpretFields kvs))) := by
  induction kvs with
  | nil =>
    intro done _
    simp [segObj, insertEntries, reinterpretFields, toBuildFields]
  | cons kv rest ih =>
    obtain ⟨k1, x⟩ := kv
    intro done hdone
    have hgc := hg
    simp only [goodFields, Bool.and_eq_true] at hgc
    obtain ⟨⟨⟨hkey, hnotin⟩, hgx⟩, hgrest⟩ := hgc
    have hbatch := IH (k1, x) (List.mem_cons_self (k1, x) rest) hgx (.objB done) k1 rfl
      (hdone (k1, x) (List.mem_cons_self (k1, x) rest))
    have habs : setField (Build.objB done) k1 (toBuild (reinterpret x)) =
        .objB (done ++ [(k1, toBuild (reinterpret x))]) := by
      simp [setField,
        setPair_absent done k1 _ (hdone (k1, x) (List.mem_cons_self (k1, x) rest))]
    rw [habs] at hbatch
    simp only [segObj]
    rw [insertEntries_append_ok _ _ _ _ hbatch]
    rw [ih (fun y hy => IH y (List.mem_cons_of_mem (k1, x) hy)) hgrest
      (done ++ [(k1, toBuild (reinterpret x))]) ?hfresh]
    · simp [reinterpretFields, toBuildFields, List.append_assoc]
    case hfresh =>
      intro kv2 hkv2
      apply findField_append_none
      · exact hdone kv2 (List.mem_cons_of_mem (k1, x) hkv2)
      · simp only [findField]
        rw [if_neg]
        intro hq
        have hkk : k1 = kv2.1 := beq_iff_eq .. |>.mp hq
        simp only [keyNotIn, List.all_eq_true] at hnotin
        have := hnotin kv2 hkv2
        rw [hkk] at this
        simp at this

/-- Inserting the segment entries of a good value under a fresh key of a
container builds exactly the canonical graph of its reinterpretation at
that key, without throwing. -/

theorem insert_segEntries (v : JVal) :
    goodVal v = true → ∀ (b : Build) (k : String),
      isContainer b = true → getField b k = none →
      insertEntries b ((segEntriesOf v).map (fun e => (k :: e.1, e.2))) =
        .ok (setField b k (toBuild (reinterpret v))) := by
  induction v using JVal.indOn with
  | hnull =>
    intro _ b k hb _
    have h1 : (segEntriesOf JVal.null).map (fun e => (k :: e.1, e.2)) =
        [([k], FormVal.str "")] := rfl
    rw [h1, insertEntries_single_leaf b k _ hb]
    rfl
  | hundf =>
    intro _ b k hb _
    have h1 : (segEntriesOf JVal.undefVal).map (fun e => (k :: e.1, e.2)) =
        [([k], FormVal.str "")] := rfl
    rw [h1, insertEntries_single_leaf b k _ hb]
    rfl
  | hstr s =>
    intro _ b k hb _
    have h1 : (segEntriesOf (JVal.str s)).map (fun e => (k :: e.1, e.2)) =
        [([k], FormVal.str (jsStringOf (.str s)))] := rfl
    rw [h1, insertEntries_single_leaf b k _ hb,
      show toBuild (reinterpret (JVal.str s)) = Build.leaf (inferString s) [] from
        toBuild_inferString s]
    rfl
  | hnum n =>
    intro hv b k hb _
    have hbound : n.natAbs ≤ maxExactNat := by
      simp only [goodVal, decide_eq_true_eq] at hv
      exact hv
    have h1 : (segEntriesOf (JVal.num n)).map (fun e => (k :: e.1, e.2)) =
        [([k], FormVal.str (jsStringOf (.num n)))] := rfl
    rw [h1, insertEntries_single_leaf b k _ hb]
    have h2 : inferVal (FormVal.str (jsStringOf (.num n))) = JVal.num n := by
      show inferString (intToStr n) = JVal.num n
      exact inferString_intToStr n hbound
    rw [h2]
    rfl
  | hnumF src => intro hv; simp [goodVal] at hv
  | hbool bb =>
    intro _ b k hb _
    cases bb with
    | true =>
      have h1 : (segEntriesOf (JVal.bool true)).map (fun e => (k :: e.1, e.2)) =
          [([k], FormVal.str "true")] := rfl
      rw [h1, insertEntries_single_leaf b k _ hb]
      rfl
    | false =>
      have h1 : (segEntriesOf (JVal.bool false)).map (fun e => (k :: e.1, e.2)) =
          [([k], FormVal.str "false")] := rfl
      rw [h1, insertEntries_single_leaf b k _ hb]
      rfl
  | hdate iso => intro hv; simp [goodVal] at hv
  | hfile n sz m => intro hv; simp [goodVal] at hv
  | herro m => intro hv; simp [goodVal] at hv
  | harr xs ihm =>
    intro hv b k hb hk
    have hx : goodElems xs = true := by
      simp only [goodVal, Bool.and_eq_true] at hv
      exact hv.2
    cases xs with
    | nil =>
      simp only [goodVal, Bool.and_eq_true] at hv
      simp at hv
    | cons x rest =>
      have hgx : goodVal x = true := by
        simp only [goodElems, Bool.and_eq_true] at hx
        exact hx.1
      have hacc := arrAcc (x :: rest) (fun y hy hgy => ihm y hy hgy) hx 0 []
        (fun j _ => rfl)
      cases he : segEntriesOf x with
      | nil => exact absurd he (segEntriesOf_ne_nil x hgx)
      | cons e0 es =>
        have hseg : segArr (x :: rest) 0 =
            (natToStr 0 :: e0.1, e0.2) ::
              (es.map (fun e => (natToStr 0 :: e.1, e.2)) ++ segArr rest 1) := by
          simp [segArr, he]
        rw [hseg] at hacc
        have hok : insertEntries
            (if jsIsNumeric (natToStr 0) then Build.arrB [] else Build.objB [])
            ((natToStr 0 :: e0.1, e0.2) ::
              (es.map (fun e => (natToStr 0 :: e.1, e.2)) ++ segArr rest 1)) =
            .ok (.arrB (toBuildElems (reinterpretElems (x :: rest)) 0)) := by
          rw [if_pos (by decide : jsIsNumeric (natToStr 0) = true)]
          simpa using hacc
        have hrest2 : ∀ e ∈ es.map (fun e => (natToStr 0 :: e.1, e.2)) ++ segArr rest 1,
            e.1 ≠ [] := by
          intro e he2
          rcases List.mem_append.mp he2 with he2 | he2
          · rcases List.mem_map.mp he2 with ⟨e1, _, rfl⟩
            exact List.cons_ne_nil _ _
          · exact segArr_segs_ne_nil rest 1 e he2
        show insertEntries b ((segArr (x :: rest) 0).map (fun e => (k :: e.1, e.2))) = _
        rw [hseg]
        exact insertEntries_fresh_ok b k (natToStr 0) e0.1 e0.2 _ _ hb hk hok hrest2
  | hobj kvs ihm =>
    intro hv b k hb hk
    have hx : goodFields kvs = true := by
      simp only [goodVal, Bool.and_eq_true] at hv
      exact hv.2
    cases kvs with
    | nil =>
      simp only [goodVal, Bool.and_eq_true] at hv
      simp at hv
    | cons kv rest =>
      obtain ⟨k1, x⟩ := kv
      have hparts := hx
      simp only [goodFields, Bool.and_eq_true] at hparts
      obtain ⟨⟨⟨hkey, _⟩, hgx⟩, _⟩ := hparts
      have hknum : jsIsNumeric k1 = false := (goodKey_facts k1 hkey).2.2.1
      have hacc := objAcc ((k1, x) :: rest) (fun y hy hgy => ihm y hy hgy) hx []
        (fun kv2 _ => rfl)
      cases he : segEntriesOf x with
      | nil => exact absurd he (segEntriesOf_ne_nil x hgx)
      | cons e0 es =>
        have hseg : segObj ((k1, x) :: rest) =
            (k1 :: e0.1, e0.2) ::
              (es.map (fun e => (k1 :: e.1, e.2)) ++ segObj rest) := by
          simp [segObj, he]
        rw [hseg] at hacc
        have hok : insertEntries
            (if jsIsNumeric k1 then Build.arrB [] else Build.objB [])
            ((k1 :: e0.1, e0.2) ::
              (es.map (fun e => (k1 :: e.1, e.2)) ++ segObj rest)) =
            .ok (.objB (toBuildFields (reinterpretFields ((k1, x) :: rest)))) := by
          rw [if_neg (by simp [hknum])]
          simpa using hacc
        have hrest2 : ∀ e ∈ es.map (fun e => (k1 :: e.1, e.2)) ++ segObj rest,
            e.1 ≠ [] := by
          intro e he2
          rcases List.mem_append.mp he2 with he2 | he2
          · rcases List.mem_map.mp he2 with ⟨e1, _, rfl⟩
            exact List.cons_ne_nil _ _
          · exact segObj_segs_ne_nil rest e he2
        show insertEntries b ((segObj ((k1, x) :: rest)).map (fun e => (k :: e.1, e.2))) = _
        rw [hseg]
        exact insertEntries_fresh_ok b k k1 e0.1 e0.2 _ _ hb hk hok hrest2

/-- Claim C1, corrected: for a payload mapping containing only scalars,
nested mappings, and sequences — additionally restricted to nonempty
nested containers, integers exact in double precision, and mapping keys
that are nonempty, free of the path delimiters `.`, `[`, `]`,
duplicate-free, not numerically coercible, and not inherited
`Object.prototype` names — decoding the encoding succeeds and rebuilds
exactly the canonical object graph of the value, except that string
leaves are reinterpreted by the decoder's inference chain and
`null`/`undefined` leaves come back as `null`.  Without the added
restrictions the round trip fails (see the counterexample: empty
containers are dropped entirely). -/

theorem decode_encode_roundtrip (v : JVal) (hv : goodTopObject v = true) :
    formDataToObject (objectToFormData v "") = .ok (toBuild (reinterpret v)) := by
  cases v with
  | obj kvs =>
    cases kvs with
    | nil => rfl
    | cons kv rest =>
      have hgf : goodFields (kv :: rest) = true := by simpa [goodTopObject] using hv
      have hgood : goodVal (.obj (kv :: rest)) = true := by
        simp [goodVal, hgf]
      have hctor := goodFields_no_ctor (kv :: rest) hgf
      have henc : (objectToFormData (.obj (kv :: rest)) "").map
          (fun kv2 => (splitPath kv2.1, kv2.2)) = segObj (kv :: rest) := by
        have hes := entrySegs_append (.obj (kv :: rest)) hgood ""
        rw [show objectToFormData (.obj (kv :: rest)) "" =
          appendToFormData (.obj (kv :: rest)) "" from
            (appendToFormData_plain (kv :: rest) "" hctor).symm]
        rw [hes]
        rw [show segEntriesOf (.obj (kv :: rest)) = segObj (kv :: rest) from rfl]
        rw [splitPath_empty]
        simp
      rw [formDataToObject_eq_insert, henc]
      rw [objAcc (kv :: rest) (fun kv2 _ hg2 => insert_segEntries kv2.2 hg2) hgf []
        (fun kv2 _ => rfl)]
      simp [toBuild, reinterpret]
  | null => simp [goodTopObject] at hv
  | undefVal => simp [goodTopObject] at hv
  | str s => simp [goodTopObject] at hv
  | num n => simp [goodTopObject] at hv
  | numF src => simp [goodTopObject] at hv
  | bool b => simp [goodTopObject] at hv
  | date iso => simp [goodTopObject] at hv
  | file n sz m => simp [goodTopObject] at hv
  | errObj m => simp [goodTopObject] at hv
  | arr xs => simp [goodTopObject] at hv

/-- Witness: the round trip evaluated on a concrete payload with nested
mappings, a sequence, a number, a Boolean, a null and plain strings. -/

theorem decode_encode_roundtrip_witness :
    formDataToObject (objectToFormData
      (.obj [("user", .obj [("name", .str "John"),
                            ("profile", .obj [("age", .num 30)])]),
             ("tags", .arr [.str "react", .str "ts"]),
             ("active", .bool true),
             ("note", .null)]) "") =
      .ok (toBuild (reinterpret
        (.obj [("user", .obj [("name", .str "John"),
                              ("profile", .obj [("age", .num 30)])]),
               ("tags", .arr [.str "react", .str "ts"]),
               ("active", .bool true),
               ("note", .null)]))) :=
  decode_encode_roundtrip
    (.obj [("user", .obj [("name", .str "John"),
                          ("profile", .obj [("age", .num 30)])]),
           ("tags", .arr [.str "react", .str "ts"]),
           ("active", .bool true),
           ("note", .null)]) (by decide)

/-- Counterexample to claim C1 as stated: the value `{a: []}` contains
only mappings and sequences, yet the encoder emits no entry for the empty
sequence, so decoding the encoding yields the empty mapping — the `a`
key, and its sequence, are gone, which neither the string-reinterpretation
nor the null clause of the claim allows. -/

theorem decode_encode_roundtrip_cex :
    formDataToObject (objectToFormData (.obj [("a", .arr [])]) "") = .ok (.objB []) ∧
    toBuild (reinterpret (.obj [("a", .arr [])])) = .objB [("a", .arrB [])] ∧
    Build.objB [] ≠ .objB [("a", .arrB [])] := by
  refine ⟨rfl, rfl, fun h => ?_⟩
  injection h with h1
  exact absurd h1 (by simp)
